import Mathlib

/-!
# Qubit gates on the Bloch sphere: the simulation engine of `QubitSimulator.jsx`

A shallow embedding of the state engine of `src/src/QubitSimulator.jsx`:
the spherical/Cartesian converter, the rotation engine, the gate catalogue,
the qubit store with its busy flag and history log, and the serializer
`buildQiskitCode` with its six regular expressions.

JavaScript numbers are modelled by the real numbers `ℝ`, so every statement
below is about exact real arithmetic (no rounding, no `NaN`, no signed zero).
The library calls of the source are modelled by their mathematical meaning:

* `Math.sin`, `Math.cos`  are `Real.sin`, `Real.cos`;
* `Math.sqrt`             is `Real.sqrt`;
* `Math.hypot(a, b, c)`   is `Real.sqrt (a * a + b * b + c * c)`;
* `Math.acos`             is `Real.arccos` (the source only calls it on
                          `z / r` with `|z| ≤ r`, see `cartToSph_acos_arg_mem`);
* `Math.atan2(y, x)`      is the principal argument of `x + y i`, in `(-π, π]`;
* `e || 1` on a number    is `1` when `e` is `0` and `e` otherwise;
* `Math.PI`               is `π` inside the functions of the source.

What exact arithmetic does not show:

* the double `Math.PI` is not `π` (it is `MathPI` below, about `1.2e-16`
  less), so `Math.sin(Math.PI)` is not `0`. The handlers are embedded with `π`
  for `Math.PI`. After a half turn a component that is `0` over the reals is,
  in the source, a residue of either sign, and `cartToSph` wraps a negative
  residue to an azimuth next to `2π`. Where a statement turns on this, it
  names the call of `applyAxisRotationOn` that the handler makes, with the end
  angle `MathPI` (section "Half turns at the end angle `Math.PI`");
* at the origin `Math.atan2` answers `0`, `π` or `-π` according to the signs
  of its two zeros; the model answers `0`. No statement below depends on the
  value of `atan2` at the origin: at a pole the azimuth is only ever stated
  after `normalizeAngles`, which overwrites it;
* an integer is printed by its decimal digits, as JavaScript prints the
  integers up to `2 ^ 53`; above, JavaScript prints the shortest digits that
  identify the double (and an exponent from `10 ^ 21` on), which is not
  modelled, and the statement about the printed qubit count is restricted to
  the integers up to `2 ^ 53`.
-/

namespace QubitSim

open Real

/-! ## Numbers -/

/-- The constant `EPS = 1e-4` of the source. -/
noncomputable def EPS : ℝ := 1e-4

/-- The JavaScript expression `e || 1` on a number: `0` is falsy. -/
noncomputable def orOne (e : ℝ) : ℝ := if e = 0 then 1 else e

/-- The call `Math.hypot(a, b, c)`. -/
noncomputable def hypot (a b c : ℝ) : ℝ := Real.sqrt (a * a + b * b + c * c)

/-- The call `Math.atan2(y, x)`: the principal argument of `x + y i`. Away from
the origin this is the source's value up to the sign of a zero result; at the
origin the source answers by the signs of the two zeros, which real numbers do
not have. -/
noncomputable def atan2 (y x : ℝ) : ℝ := Complex.arg ⟨x, y⟩

/-- The value of the double `Math.PI`, `884279719003555 / 2 ^ 48`, that is
`3.141592653589793115997963...`: the number the program holds where the text
says `pi`. -/
noncomputable def MathPI : ℝ := 884279719003555 / 281474976710656

/-! ## Data -/

/-- The object `{ x, y, z }`: a Cartesian vector. -/
@[ext]
structure Vec3 where
  x : ℝ
  y : ℝ
  z : ℝ

/-- The object `{ theta, phi }`: a qubit state, also what `cartToSph` returns. -/
@[ext]
structure Qubit where
  theta : ℝ
  phi : ℝ

/-- The object `{ t, p }` that `normalizeAngles` returns. -/
@[ext]
structure TP where
  t : ℝ
  p : ℝ

/-- The Euclidean norm of a vector, `Math.hypot(v.x, v.y, v.z)`. -/
noncomputable def Vec3.norm (v : Vec3) : ℝ := hypot v.x v.y v.z

/-! ## Spherical/Cartesian converter -/

/-- The function `sphToCart(theta, phi)`. -/
noncomputable def sphToCart (theta phi : ℝ) : Vec3 :=
  { x := Real.sin theta * Real.cos phi
    y := Real.sin theta * Real.sin phi
    z := Real.cos theta }

/-- The function `cartToSph({ x, y, z })`. -/
noncomputable def cartToSph (v : Vec3) : Qubit :=
  let r := orOne (Real.sqrt (v.x * v.x + v.y * v.y + v.z * v.z))
  let theta := Real.arccos (v.z / r)
  let phi := atan2 v.y v.x
  { theta := theta, phi := if phi < 0 then phi + 2 * π else phi }

/-! ## Rotation engine -/

/-- The function `rotateAroundX(v, alpha)`. -/
noncomputable def rotateAroundX (v : Vec3) (alpha : ℝ) : Vec3 :=
  let ca := Real.cos alpha
  let sa := Real.sin alpha
  { x := v.x, y := v.y * ca - v.z * sa, z := v.y * sa + v.z * ca }

/-- The function `rotateAroundY(v, alpha)`. -/
noncomputable def rotateAroundY (v : Vec3) (alpha : ℝ) : Vec3 :=
  let ca := Real.cos alpha
  let sa := Real.sin alpha
  { x := v.x * ca + v.z * sa, y := v.y, z := -v.x * sa + v.z * ca }

/-- The function `rotateAroundZ(v, alpha)`. -/
noncomputable def rotateAroundZ (v : Vec3) (alpha : ℝ) : Vec3 :=
  let ca := Real.cos alpha
  let sa := Real.sin alpha
  { x := v.x * ca - v.y * sa, y := v.x * sa + v.y * ca, z := v.z }

/-- The function `rotateAroundAxis(v, axis, alpha)`, Rodrigues' formula; the
axis is the array `[ax, ay, az]`. -/
noncomputable def rotateAroundAxis (v : Vec3) (axis : ℝ × ℝ × ℝ) (alpha : ℝ) : Vec3 :=
  let ax := axis.1
  let ay := axis.2.1
  let az := axis.2.2
  let len := orOne (hypot ax ay az)
  let nx := ax / len
  let ny := ay / len
  let nz := az / len
  let ca := Real.cos alpha
  let sa := Real.sin alpha
  let dot := v.x * nx + v.y * ny + v.z * nz
  { x := v.x * ca + (ny * v.z - nz * v.y) * sa + nx * dot * (1 - ca)
    y := v.y * ca + (nz * v.x - nx * v.z) * sa + ny * dot * (1 - ca)
    z := v.z * ca + (nx * v.y - ny * v.x) * sa + nz * dot * (1 - ca) }

/-! ## Qubit store -/

/-- The React state of `QubitSimulator`: the qubit collection, the selection
cursor, the busy flag `animating`, the history log and `lastAppliedGate`. -/
structure Sim where
  qubits : List Qubit
  selected : Nat
  animating : Bool
  history : List String
  lastAppliedGate : Option String

/-- The initial state: `useState([{ theta: 0, phi: 0 }])`, `useState(0)`,
`useState(false)`, `useState([])`, `useState(null)`. -/
def Sim.init : Sim :=
  { qubits := [⟨0, 0⟩], selected := 0, animating := false, history := [],
    lastAppliedGate := none }

/-- The `axis` argument of `applyAxisRotationOn`: an array `[ax, ay, az]` or a
string. -/
inductive Axis where
  | arr (a : ℝ × ℝ × ℝ)
  | str (s : String)

/-- One call of `animate(0, end, { onUpdate, onComplete })` made by
`applyAxisRotationOn`: the arguments of the call and the `qubits` value its
callbacks close over (read by `vecOf`). -/
structure Animation where
  qubits : List Qubit
  index : Nat
  axis : Axis
  angle : ℝ
  label : String

/-- The helper `vecOf(i)` over the collection `qubits`; `none` when `qubits[i]`
is `undefined` (the property access throws). -/
noncomputable def vecOf (qubits : List Qubit) (i : Nat) : Option Vec3 :=
  qubits[i]?.map fun q => sphToCart q.theta q.phi

/-- The function `normalizeAngles(t, p)`. -/
noncomputable def normalizeAngles (t p : ℝ) : TP :=
  if |t| < EPS ∨ |t - π| < EPS then { t := t, p := 0 } else { t := t, p := p }

/-- The updater of `setQubitAngles(i, t, p)`:
`qs.map((q, idx) => (idx === i ? { theta: t, phi: p } : q))`. -/
def setQubitAngles (i : Nat) (t p : ℝ) (qs : List Qubit) : List Qubit :=
  qs.mapIdx fun idx q => if idx = i then { theta := t, phi := p } else q

/-- The rotated vector `vRot` of `onUpdate`, by the kind of `axis`. -/
noncomputable def rotateBy (axis : Axis) (v0 : Vec3) (alpha : ℝ) : Vec3 :=
  match axis with
  | .arr a => rotateAroundAxis v0 a alpha
  | .str s =>
    if s = "x" then rotateAroundX v0 alpha
    else if s = "y" then rotateAroundY v0 alpha
    else rotateAroundZ v0 alpha

/-- The callback `onUpdate(alpha)` of an animation, on the current state. -/
noncomputable def onUpdate (a : Animation) (alpha : ℝ) (s : Sim) : Option Sim :=
  (vecOf a.qubits a.index).map fun v0 =>
    let vRot := rotateBy a.axis v0 alpha
    let q := cartToSph vRot
    let n := normalizeAngles q.theta q.phi
    { s with qubits := setQubitAngles a.index n.t n.p s.qubits }

/-- The callback `onComplete()` of an animation. -/
def onComplete (a : Animation) (s : Sim) : Sim :=
  { s with animating := false, history := s.history ++ [a.label] }

/-- The frames of an animation: `onUpdate` at each of the given angles in
order. -/
noncomputable def runFrames (a : Animation) : List ℝ → Sim → Option Sim
  | [], s => some s
  | alpha :: rest, s => (onUpdate a alpha s).bind (runFrames a rest)

/-- An animation that runs to its end: any intermediate frames, the last frame
at the target angle, then `onComplete`. -/
noncomputable def runAnimation (a : Animation) (frames : List ℝ) (s : Sim) : Option Sim :=
  (runFrames a (frames ++ [a.angle]) s).map (onComplete a)

/-- The function `applyAxisRotationOn(index, axis, angle, label)`: the state
after the call and the animation it started, if any. -/
def applyAxisRotationOn (s : Sim) (index : Nat) (axis : Axis) (angle : ℝ)
    (label : String) : Sim × Option Animation :=
  if s.animating then (s, none)
  else ({ s with animating := true },
        some { qubits := s.qubits, index := index, axis := axis, angle := angle,
               label := label })

/-- The state with `setLastAppliedGate(g)` applied. -/
def Sim.withLast (s : Sim) (g : String) : Sim := { s with lastAppliedGate := some g }

/-- The handler `applyX`. -/
noncomputable def applyX (s : Sim) : Sim × Option Animation :=
  applyAxisRotationOn (s.withLast "x") s.selected (.str "x") π
    ("x q[" ++ toString s.selected ++ "]")

/-- The handler `applyY`. -/
noncomputable def applyY (s : Sim) : Sim × Option Animation :=
  applyAxisRotationOn (s.withLast "y") s.selected (.str "y") π
    ("y q[" ++ toString s.selected ++ "]")

/-- The handler `applyZ`. -/
noncomputable def applyZ (s : Sim) : Sim × Option Animation :=
  applyAxisRotationOn (s.withLast "z") s.selected (.str "z") π
    ("z q[" ++ toString s.selected ++ "]")

/-- The handler `applyS`. -/
noncomputable def applyS (s : Sim) : Sim × Option Animation :=
  applyAxisRotationOn (s.withLast "s") s.selected (.str "z") (π / 2)
    ("s q[" ++ toString s.selected ++ "]")

/-- The handler `applySdg`. -/
noncomputable def applySdg (s : Sim) : Sim × Option Animation :=
  applyAxisRotationOn (s.withLast "sdg") s.selected (.str "z") (-π / 2)
    ("sdg q[" ++ toString s.selected ++ "]")

/-- The handler `applyT`. -/
noncomputable def applyT (s : Sim) : Sim × Option Animation :=
  applyAxisRotationOn (s.withLast "t") s.selected (.str "z") (π / 4)
    ("t q[" ++ toString s.selected ++ "]")

/-- The handler `applyTdg`. -/
noncomputable def applyTdg (s : Sim) : Sim × Option Animation :=
  applyAxisRotationOn (s.withLast "tdg") s.selected (.str "z") (-π / 4)
    ("tdg q[" ++ toString s.selected ++ "]")

/-- The handler `applyH`. -/
noncomputable def applyH (s : Sim) : Sim × Option Animation :=
  applyAxisRotationOn (s.withLast "h") s.selected (.arr (1, 0, 1)) π
    ("h q[" ++ toString s.selected ++ "]")

/-- The handler `reset`. -/
def reset (_s : Sim) : Sim :=
  { qubits := [⟨0, 0⟩], selected := 0, history := [], animating := false,
    lastAppliedGate := none }

/-- The helper `rad(deg)`. -/
noncomputable def rad (deg : ℝ) : ℝ := deg * π / 180

/-- The helper `deg(rad)`. -/
noncomputable def deg (rad : ℝ) : ℝ := rad * 180 / π

/-- The handler `setStateFromBloch(tDeg, pDeg)`. -/
noncomputable def setStateFromBloch (s : Sim) (tDeg pDeg : ℝ) : Sim :=
  let tRaw := rad tDeg
  let pRaw := rad pDeg
  let n := normalizeAngles tRaw pRaw
  { s with qubits := setQubitAngles s.selected n.t n.p s.qubits }

/-- The helper `probOne(i)` over the collection `qubits`; `none` when
`qubits[i]` is `undefined` (the property access throws). -/
noncomputable def probOne (qubits : List Qubit) (i : Nat) : Option ℝ :=
  qubits[i]?.map fun q => (1 - Real.cos q.theta) / 2

/-- The helper `anglesFromVec(v)`. -/
noncomputable def anglesFromVec (v : Vec3) : TP :=
  let q := cartToSph v
  normalizeAngles q.theta q.phi

/-- The handler `applyCNOT`; `none` when a property access throws. -/
noncomputable def applyCNOT (s : Sim) : Option (Sim × Option Animation) :=
  if s.qubits.length < 2 || s.animating then some (s, none)
  else
    (probOne s.qubits 0).map fun p =>
      applyAxisRotationOn (s.withLast "cx") 1 (.str "x") (π * p)
        ("cx q[" ++ toString 0 ++ "],q[" ++ toString 1 ++ "]")

/-- The handler `applyCZ`; `none` when a property access throws. -/
noncomputable def applyCZ (s : Sim) : Option (Sim × Option Animation) :=
  if s.qubits.length < 2 || s.animating then some (s, none)
  else
    (probOne s.qubits 0).map fun p =>
      applyAxisRotationOn (s.withLast "cz") 1 (.str "z") (π * p)
        ("cz q[" ++ toString 0 ++ "],q[" ++ toString 1 ++ "]")

/-- The updater of `applySWAP`: `[{ ...b }, { ...a }, ...qs.slice(2)]` with
`a = qs[0]`, `b = qs[1]`; `none` when one of the two is `undefined`, which the
guard of the handler excludes. -/
def swapUpdater (qs : List Qubit) : Option (List Qubit) :=
  match qs[0]?, qs[1]? with
  | some a, some b => some ({ theta := b.theta, phi := b.phi }
                            :: { theta := a.theta, phi := a.phi } :: qs.drop 2)
  | _, _ => none

/-- The handler `applySWAP`: no animation, the exchange is written at once. -/
def applySWAP (s : Sim) : Option (Sim × Option Animation) :=
  if s.qubits.length < 2 || s.animating then some (s, none)
  else
    (swapUpdater s.qubits).map fun qs =>
      ({ s.withLast "swap" with qubits := qs, history := s.history ++ ["swap q[0],q[1]"] },
       none)

/-- The local function `rot` of `applyISWAP`. -/
noncomputable def iswapRot (q : Qubit) : TP :=
  anglesFromVec (rotateAroundZ (sphToCart q.theta q.phi) (π / 2))

/-- The updater of `applyISWAP`; `none` when `qs[0]` or `qs[1]` is `undefined`
(the property access in `rot` throws). -/
noncomputable def iswapUpdater (qs : List Qubit) : Option (List Qubit) :=
  match qs[0]?, qs[1]? with
  | some a, some b =>
    let a2 := iswapRot b
    let b2 := iswapRot a
    some ({ theta := a2.t, phi := a2.p } :: { theta := b2.t, phi := b2.p } :: qs.drop 2)
  | _, _ => none

/-- The handler `applyISWAP`: no animation. -/
noncomputable def applyISWAP (s : Sim) : Option (Sim × Option Animation) :=
  if s.qubits.length < 2 || s.animating then some (s, none)
  else
    (iswapUpdater s.qubits).map fun qs =>
      ({ s.withLast "iswap" with qubits := qs,
                                 history := s.history ++ ["iswap q[0],q[1]"] },
       none)

/-- The handler `applyCCX`; `none` when a property access throws. -/
noncomputable def applyCCX (s : Sim) : Option (Sim × Option Animation) :=
  if s.qubits.length < 3 || s.animating then some (s, none)
  else
    (probOne s.qubits 0).bind fun p1 =>
    (probOne s.qubits 1).map fun p2 =>
      applyAxisRotationOn (s.withLast "ccx") 2 (.str "x") (π * (p1 * p2))
        ("ccx q[" ++ toString 0 ++ "],q[" ++ toString 1 ++ "] -> q[" ++ toString 2 ++ "]")

/-- The local function `lerpSwap(va, vb, k)` of `applyCSWAP`. -/
noncomputable def lerpSwap (va vb : Vec3) (k : ℝ) : Vec3 :=
  let v : Vec3 :=
    { x := (1 - k) * va.x + k * vb.x
      y := (1 - k) * va.y + k * vb.y
      z := (1 - k) * va.z + k * vb.z }
  let len := orOne (hypot v.x v.y v.z)
  { x := v.x / len, y := v.y / len, z := v.z / len }

/-- The handler `applyCSWAP`: no animation; `none` when a property access
throws. -/
noncomputable def applyCSWAP (s : Sim) : Option (Sim × Option Animation) :=
  if s.qubits.length < 3 || s.animating then some (s, none)
  else
    (probOne s.qubits 0).bind fun p =>
    (s.qubits[1]?).bind fun qa =>
    (s.qubits[2]?).map fun qb =>
      let va0 := sphToCart qa.theta qa.phi
      let vb0 := sphToCart qb.theta qb.phi
      let va1 := lerpSwap va0 vb0 p
      let vb1 := lerpSwap vb0 va0 p
      let na := anglesFromVec va1
      let nb := anglesFromVec vb1
      ({ s.withLast "cswap" with
          qubits := s.qubits.mapIdx fun i q =>
            if i = 1 then { theta := na.t, phi := na.p }
            else if i = 2 then { theta := nb.t, phi := nb.p } else q
          history := s.history ++
            ["cswap q[" ++ toString 0 ++ "] ? swap q[" ++ toString 1 ++ "],q["
              ++ toString 2 ++ "]"] },
       none)

/-- The gates of the catalogue, one per handler. -/
inductive Gate where
  | X | Y | Z | H | S | Sdg | T | Tdg
  | CNOT | CZ | SWAP | ISWAP
  | CCX | CSWAP
  deriving DecidableEq, Repr

/-- The handler of a gate. -/
noncomputable def applyGate : Gate → Sim → Option (Sim × Option Animation)
  | .X, s => some (applyX s)
  | .Y, s => some (applyY s)
  | .Z, s => some (applyZ s)
  | .H, s => some (applyH s)
  | .S, s => some (applyS s)
  | .Sdg, s => some (applySdg s)
  | .T, s => some (applyT s)
  | .Tdg, s => some (applyTdg s)
  | .CNOT, s => applyCNOT s
  | .CZ, s => applyCZ s
  | .SWAP, s => applySWAP s
  | .ISWAP, s => applyISWAP s
  | .CCX, s => applyCCX s
  | .CSWAP, s => applyCSWAP s

/-- The number of qubits below which the handler of a gate returns at once: the
constant of its `qubits.length < n` guard, `0` for the single-qubit handlers,
which have no such guard. -/
def Gate.qubitsNeeded : Gate → Nat
  | .CNOT | .CZ | .SWAP | .ISWAP => 2
  | .CCX | .CSWAP => 3
  | _ => 0

/-- What follows a handler: the animation it started, if any, runs to its end
over the given intermediate frames. -/
noncomputable def finish (frames : List ℝ) (r : Sim × Option Animation) : Option Sim :=
  match r.2 with
  | some a => runAnimation a frames r.1
  | none => some r.1

/-- A gate carried through: its handler runs and the animation it started, if
any, runs to its end over the given intermediate frames. -/
noncomputable def commitGate (g : Gate) (frames : List ℝ) (s : Sim) : Option Sim :=
  (applyGate g s).bind (finish frames)

/-- The click handler of the "Add qubit" button. -/
def addQubit (s : Sim) : Sim :=
  if s.qubits.length < 3 && !s.animating then
    { s with qubits := s.qubits ++ [{ theta := 0, phi := 0 }] }
  else s

/-- The click handler of the "Remove selected" button. -/
def removeSelected (s : Sim) : Sim :=
  if s.qubits.length > 1 && !s.animating then
    let next := (s.qubits.enum.filter fun iq => iq.1 != s.selected).map Prod.snd
    let finalList := if next.length != 0 then next else [{ theta := 0, phi := 0 }]
    let newIndex := min s.selected (max 0 (finalList.length - 1))
    { s with qubits := finalList, selected := newIndex }
  else s

/-- The click handler of a sphere: `setSelected(i)`. -/
def select (s : Sim) (i : Nat) : Sim := { s with selected := i }

/-! ## History serializer

The six regular expressions of `buildQiskitCode` are embedded as matchers on
the list of characters of a record. All carry the flag `i` and are anchored by
`^` and `$`. Each quantified class (`\s+`, `\s*`, `\d+`) is followed by a
literal character outside the class, so the longest run is the only run that
can lead to a match and the matchers take it without backtracking; the
alternation of gate names is tried in the order of the source. -/

/-- The class `\s` of a JavaScript regular expression, by code point: tab,
line feed, vertical tab, form feed, carriage return, space, no-break space,
U+1680, U+2000–U+200A, U+2028, U+2029, U+202F, U+205F, U+3000, U+FEFF. -/
def isSpace (c : Char) : Bool :=
  let n := c.toNat
  (9 ≤ n && n ≤ 13) || n == 32 || n == 160 || n == 5760 || (8192 ≤ n && n ≤ 8202)
    || n == 8232 || n == 8233 || n == 8239 || n == 8287 || n == 12288 || n == 65279

/-- A literal of a pattern (lower-case letters and punctuation) under the flag
`i`, at the start of the input: the rest of the input after it. -/
def lit : List Char → List Char → Option (List Char)
  | [], s => some s
  | p :: ps, c :: cs => if c.toLower = p then lit ps cs else none
  | _ :: _, [] => none

/-- The pattern `\s+` at the start of the input. -/
def spaces1 : List Char → Option (List Char)
  | c :: cs => if isSpace c then some (cs.dropWhile isSpace) else none
  | [] => none

/-- The pattern `\s*` at the start of the input. -/
def spaces0 (s : List Char) : List Char := s.dropWhile isSpace

/-- The call `parseInt(m, 10)` on a run of decimal digits. The model is exact;
JavaScript is exact below `2^53`. -/
def parseInt (ds : List Char) : Nat :=
  ds.foldl (fun n c => 10 * n + (c.toNat - 48)) 0

/-- The pattern `q\[(\d+)\]` at the start of the input: the number captured,
read by `parseInt`, and the rest of the input. -/
def operand (s : List Char) : Option (Nat × List Char) :=
  (lit ['q', '['] s).bind fun s1 =>
    let ds := s1.takeWhile Char.isDigit
    if ds = [] then none
    else (lit [']'] (s1.dropWhile Char.isDigit)).map fun s2 => (parseInt ds, s2)

/-- The pattern `q\[(\d+)\],q\[(\d+)\]$`. -/
def twoOperands (s : List Char) : Option (Nat × Nat) :=
  (operand s).bind fun r1 =>
  (lit [','] r1.2).bind fun s1 =>
  (operand s1).bind fun r2 =>
    if r2.2 = [] then some (r1.1, r2.1) else none

/-- The pattern `/^(x|y|z|h|s|sdg|t|tdg)\s+q\[(\d+)\]$/i`: the gate name in
lower case and the operand. -/
def matchSingle (h : List Char) : Option (String × Nat) :=
  ["x", "y", "z", "h", "s", "sdg", "t", "tdg"].findSome? fun g =>
    (lit g.toList h).bind fun s1 =>
    (spaces1 s1).bind fun s2 =>
    (operand s2).bind fun r =>
      if r.2 = [] then some (g, r.1) else none

/-- The pattern `/^(cx|cz)\s+q\[(\d+)\],q\[(\d+)\]$/i`. -/
def matchCxCz (h : List Char) : Option (String × Nat × Nat) :=
  ["cx", "cz"].findSome? fun g =>
    (lit g.toList h).bind fun s1 =>
    (spaces1 s1).bind fun s2 =>
    (twoOperands s2).map fun r => (g, r.1, r.2)

/-- The pattern `/^swap\s+q\[(\d+)\],q\[(\d+)\]$/i`. -/
def matchSwap (h : List Char) : Option (Nat × Nat) :=
  (lit "swap".toList h).bind fun s1 =>
  (spaces1 s1).bind twoOperands

/-- The pattern `/^iswap\s+q\[(\d+)\],q\[(\d+)\]$/i`. -/
def matchIswap (h : List Char) : Option (Nat × Nat) :=
  (lit "iswap".toList h).bind fun s1 =>
  (spaces1 s1).bind twoOperands

/-- The pattern `/^ccx\s+q\[(\d+)\],q\[(\d+)\]\s*->\s*q\[(\d+)\]$/i`. -/
def matchCcx (h : List Char) : Option (Nat × Nat × Nat) :=
  (lit "ccx".toList h).bind fun s1 =>
  (spaces1 s1).bind fun s2 =>
  (operand s2).bind fun r1 =>
  (lit [','] r1.2).bind fun s3 =>
  (operand s3).bind fun r2 =>
  (lit ['-', '>'] (spaces0 r2.2)).bind fun s4 =>
  (operand (spaces0 s4)).bind fun r3 =>
    if r3.2 = [] then some (r1.1, r2.1, r3.1) else none

/-- The pattern
`/^cswap\s+q\[(\d+)\]\s*\?\s*swap\s+q\[(\d+)\],q\[(\d+)\]$/i`. -/
def matchCswap (h : List Char) : Option (Nat × Nat × Nat) :=
  (lit "cswap".toList h).bind fun s1 =>
  (spaces1 s1).bind fun s2 =>
  (operand s2).bind fun r1 =>
  (lit ['?'] (spaces0 r1.2)).bind fun s3 =>
  (lit "swap".toList (spaces0 s3)).bind fun s4 =>
  (spaces1 s4).bind fun s5 =>
  (twoOperands s5).map fun r => (r1.1, r.1, r.2)

/-- The body of the loop of `buildQiskitCode` for one record `h`: the line it
pushes. -/
def emitLine (h : String) : String :=
  match matchSingle h.toList with
  | some (gate, q) => "qc." ++ gate ++ "(" ++ toString q ++ ")"
  | none =>
  match matchCxCz h.toList with
  | some (gate, c, t) => "qc." ++ gate ++ "(" ++ toString c ++ ", " ++ toString t ++ ")"
  | none =>
  match matchSwap h.toList with
  | some (a, b) => "qc.swap(" ++ toString a ++ ", " ++ toString b ++ ")"
  | none =>
  match matchIswap h.toList with
  | some (a, b) => "qc.append(iSwapGate(), [" ++ toString a ++ ", " ++ toString b ++ "])"
  | none =>
  match matchCcx h.toList with
  | some (c1, c2, t) =>
    "qc.ccx(" ++ toString c1 ++ ", " ++ toString c2 ++ ", " ++ toString t ++ ")"
  | none =>
  match matchCswap h.toList with
  | some (c, a, b) =>
    "qc.cswap(" ++ toString c ++ ", " ++ toString a ++ ", " ++ toString b ++ ")"
  | none => "# " ++ h

/-- The call `lines.join("\n")`. -/
def joinLines : List String → String
  | [] => ""
  | [a] => a
  | a :: b :: rest => a ++ "\n" ++ joinLines (b :: rest)

/-- The array `lines` that `buildQiskitCode(history, numQubits)` builds, for an
integer `numQubits`; `numQubits || 1` is `1` for `0`, and an integer is
printed by its decimal digits (as JavaScript prints the integers up to
`2 ^ 53`). -/
def buildLines (history : List String) (numQubits : Int) : List String :=
  let lines := ["from qiskit import QuantumCircuit"]
  let needsISWAP := history.any fun h => (matchIswap h.toList).isSome
  let lines :=
    if needsISWAP then lines ++ ["from qiskit.circuit.library import iSwapGate"] else lines
  let lines := lines ++
    ["qc = QuantumCircuit(" ++ toString (max 1 (if numQubits = 0 then 1 else numQubits)) ++ ")"]
  let lines := if history.length = 0 then lines ++ ["# (no gates applied yet)"] else lines
  let lines := lines ++ history.map emitLine
  lines ++ ["print(qc)"]

/-- The function `buildQiskitCode(history, numQubits)`. -/
def buildQiskitCode (history : List String) (numQubits : Int) : String :=
  joinLines (buildLines history numQubits)

/-! ## Vocabulary of the statements -/

/-- The object literal `{ theta: n.t, phi: n.p }` built from a result of
`normalizeAngles`. -/
def TP.toQubit (n : TP) : Qubit := { theta := n.t, phi := n.p }

/-- The data model of a stored qubit state: `theta` in `[0, π]`, `phi` in
`[0, 2π)`, and `phi = 0` when `theta` is within `EPS` of `0` or of `π`. -/
def Qubit.WellFormed (q : Qubit) : Prop :=
  0 ≤ q.theta ∧ q.theta ≤ π ∧ 0 ≤ q.phi ∧ q.phi < 2 * π
    ∧ (|q.theta| < EPS ∨ |q.theta - π| < EPS → q.phi = 0)

/-- One event of the simulator, as a transition of the store: a gate handler is
invoked (in any state, busy or not), a frame of an animation arrives or an
animation completes (for any animation and any angle, which covers every
frame the animation library can deliver), a slider is moved within its offered
range (`0`–`180` degrees for theta, `0`–`360` degrees for phi), a qubit is
added or removed, a displayed sphere is clicked, or the store is reset. -/
inductive Step : Sim → Sim → Prop
  | gate (g : Gate) (s : Sim) (r : Sim × Option Animation) :
      applyGate g s = some r → Step s r.1
  | frame (a : Animation) (alpha : ℝ) (s s' : Sim) :
      onUpdate a alpha s = some s' → Step s s'
  | complete (a : Animation) (s : Sim) : Step s (onComplete a s)
  | setBloch (s : Sim) (tDeg pDeg : ℝ) :
      0 ≤ tDeg → tDeg ≤ 180 → 0 ≤ pDeg → pDeg ≤ 360 → Step s (setStateFromBloch s tDeg pDeg)
  | add (s : Sim) : Step s (addQubit s)
  | remove (s : Sim) : Step s (removeSelected s)
  | select (s : Sim) (i : Nat) : i < s.qubits.length → Step s (select s i)
  | reset (s : Sim) : Step s (reset s)

/-- The stores the simulator can be in: the initial store and every store one
event away from a reachable one. -/
inductive Reachable : Sim → Prop
  | init : Reachable Sim.init
  | step (s s' : Sim) : Reachable s → Step s s' → Reachable s'

/-- The pole rule of the data model on one state: `phi = 0` when `theta` is
within `EPS` of `0` or of `π`. -/
def Qubit.PoleNormal (q : Qubit) : Prop :=
  |q.theta| < EPS ∨ |q.theta - π| < EPS → q.phi = 0

/-- The angle ranges that every stored state keeps: `theta` in `[0, π]` and
`phi` in the closed interval `[0, 2π]`. -/
def Qubit.InRange (q : Qubit) : Prop :=
  0 ≤ q.theta ∧ q.theta ≤ π ∧ 0 ≤ q.phi ∧ q.phi ≤ 2 * π

/-- The lines of a text: the runs of characters between line feeds. -/
def splitLines : List Char → List (List Char)
  | [] => [[]]
  | c :: cs =>
    if c = '\n' then [] :: splitLines cs
    else
      match splitLines cs with
      | l :: ls => (c :: l) :: ls
      | [] => [[c]]

/-- The lines of the text that `buildQiskitCode` returns. -/
def linesOf (s : String) : List String := (splitLines s.toList).map String.mk

/-- The record a gate handler appends to the history log, for the selected
index `i` at invocation (the multi-qubit handlers log fixed indices). -/
def Gate.label (g : Gate) (i : Nat) : String :=
  match g with
  | .X => "x q[" ++ toString i ++ "]"
  | .Y => "y q[" ++ toString i ++ "]"
  | .Z => "z q[" ++ toString i ++ "]"
  | .H => "h q[" ++ toString i ++ "]"
  | .S => "s q[" ++ toString i ++ "]"
  | .Sdg => "sdg q[" ++ toString i ++ "]"
  | .T => "t q[" ++ toString i ++ "]"
  | .Tdg => "tdg q[" ++ toString i ++ "]"
  | .CNOT => "cx q[0],q[1]"
  | .CZ => "cz q[0],q[1]"
  | .SWAP => "swap q[0],q[1]"
  | .ISWAP => "iswap q[0],q[1]"
  | .CCX => "ccx q[0],q[1] -> q[2]"
  | .CSWAP => "cswap q[0] ? swap q[1],q[2]"

/-- The call line of the generated code that belongs to a record of a gate. -/
def Gate.line (g : Gate) (i : Nat) : String :=
  match g with
  | .X => "qc.x(" ++ toString i ++ ")"
  | .Y => "qc.y(" ++ toString i ++ ")"
  | .Z => "qc.z(" ++ toString i ++ ")"
  | .H => "qc.h(" ++ toString i ++ ")"
  | .S => "qc.s(" ++ toString i ++ ")"
  | .Sdg => "qc.sdg(" ++ toString i ++ ")"
  | .T => "qc.t(" ++ toString i ++ ")"
  | .Tdg => "qc.tdg(" ++ toString i ++ ")"
  | .CNOT => "qc.cx(0, 1)"
  | .CZ => "qc.cz(0, 1)"
  | .SWAP => "qc.swap(0, 1)"
  | .ISWAP => "qc.append(iSwapGate(), [0, 1])"
  | .CCX => "qc.ccx(0, 1, 2)"
  | .CSWAP => "qc.cswap(0, 1, 2)"

/-! ## Rotation engine: lemmas -/

theorem orOne_ne_zero (e : ℝ) : orOne e ≠ 0 := by
  unfold orOne
  split_ifs with h
  · exact one_ne_zero
  · exact h

theorem orOne_of_ne_zero {e : ℝ} (h : e ≠ 0) : orOne e = e := by
  simp [orOne, h]

theorem hypot_sq (a b c : ℝ) : hypot a b c ^ 2 = a * a + b * b + c * c := by
  unfold hypot
  exact Real.sq_sqrt (by nlinarith [mul_self_nonneg a, mul_self_nonneg b, mul_self_nonneg c])

theorem hypot_congr {a b c a' b' c' : ℝ}
    (h : a * a + b * b + c * c = a' * a' + b' * b' + c' * c') :
    hypot a b c = hypot a' b' c' := by
  unfold hypot
  rw [h]

/-- The normalised axis of `rotateAroundAxis` is a unit vector when the axis has
non-zero length. -/
theorem axis_unit {ax ay az : ℝ} (h : hypot ax ay az ≠ 0) :
    (ax / orOne (hypot ax ay az)) ^ 2 + (ay / orOne (hypot ax ay az)) ^ 2
      + (az / orOne (hypot ax ay az)) ^ 2 = 1 := by
  rw [orOne_of_ne_zero h]
  have h2 := hypot_sq ax ay az
  field_simp
  linarith

/-- Squared length after Rodrigues' formula about a unit axis. -/
theorem rodrigues_sq (x y z nx ny nz c s : ℝ)
    (hN : nx ^ 2 + ny ^ 2 + nz ^ 2 = 1) (hcs : c ^ 2 + s ^ 2 = 1) :
    (x * c + (ny * z - nz * y) * s + nx * (x * nx + y * ny + z * nz) * (1 - c)) *
        (x * c + (ny * z - nz * y) * s + nx * (x * nx + y * ny + z * nz) * (1 - c))
      + (y * c + (nz * x - nx * z) * s + ny * (x * nx + y * ny + z * nz) * (1 - c)) *
        (y * c + (nz * x - nx * z) * s + ny * (x * nx + y * ny + z * nz) * (1 - c))
      + (z * c + (nx * y - ny * x) * s + nz * (x * nx + y * ny + z * nz) * (1 - c)) *
        (z * c + (nx * y - ny * x) * s + nz * (x * nx + y * ny + z * nz) * (1 - c))
      = x * x + y * y + z * z := by
  linear_combination
    ((x * x + y * y + z * z) - (x * nx + y * ny + z * nz) ^ 2) * hcs
      + ((x * x + y * y + z * z) * s ^ 2
          + (x * nx + y * ny + z * nz) ^ 2 * (1 - c) ^ 2) * hN

/-- One component of two successive Rodrigues rotations about a unit axis
`(n1, n2, n3)`: `(p, q, r)` is the vector, listed so that `p` is the component
computed and `(n2 * r - n3 * q)` its cross-product term. -/
theorem rodrigues_comp (p q r n1 n2 n3 c s C S : ℝ)
    (hN : n1 ^ 2 + n2 ^ 2 + n3 ^ 2 = 1) :
    (p * c + (n2 * r - n3 * q) * s + n1 * (p * n1 + q * n2 + r * n3) * (1 - c)) * C
      + (n2 * (r * c + (n1 * q - n2 * p) * s + n3 * (p * n1 + q * n2 + r * n3) * (1 - c))
          - n3 * (q * c + (n3 * p - n1 * r) * s + n2 * (p * n1 + q * n2 + r * n3) * (1 - c)))
        * S
      + n1 *
          ((p * c + (n2 * r - n3 * q) * s + n1 * (p * n1 + q * n2 + r * n3) * (1 - c)) * n1
            + (q * c + (n3 * p - n1 * r) * s + n2 * (p * n1 + q * n2 + r * n3) * (1 - c)) * n2
            + (r * c + (n1 * q - n2 * p) * s + n3 * (p * n1 + q * n2 + r * n3) * (1 - c)) * n3)
        * (1 - C)
      = p * (c * C - s * S) + (n2 * r - n3 * q) * (s * C + c * S)
          + n1 * (p * n1 + q * n2 + r * n3) * (1 - (c * C - s * S)) := by
  linear_combination
    (-(s * S) * p + n1 * (p * n1 + q * n2 + r * n3) * (1 - c) * (1 - C)) * hN

/-! ## Rotation engine: the claims -/

/-- C2, as stated, fails: about the zero axis `rotateAroundAxis` scales the
vector by `cos alpha`, so a quarter turn sends `(1, 0, 0)` to the zero vector. -/
theorem rotateAroundAxis_zero_axis_norm :
    (rotateAroundAxis ⟨1, 0, 0⟩ (0, 0, 0) (π / 2)).norm = 0
      ∧ Vec3.norm ⟨1, 0, 0⟩ = 1
      ∧ (rotateAroundAxis ⟨1, 0, 0⟩ (0, 0, 0) (π / 2)).norm ≠ Vec3.norm ⟨1, 0, 0⟩ := by
  refine ⟨?_, ?_, ?_⟩ <;> simp [rotateAroundAxis, Vec3.norm, hypot, orOne]

/-- C2, amended: for every vector `v`, every axis `a` of non-zero length and
every angle `alpha`, `rotateAroundAxis v a alpha` has the Euclidean norm of
`v`. -/
theorem rotateAroundAxis_norm (v : Vec3) (a : ℝ × ℝ × ℝ) (alpha : ℝ)
    (ha : hypot a.1 a.2.1 a.2.2 ≠ 0) :
    (rotateAroundAxis v a alpha).norm = v.norm := by
  have hN := axis_unit ha
  have hcs := Real.cos_sq_add_sin_sq alpha
  simp only [Vec3.norm, rotateAroundAxis]
  exact hypot_congr (rodrigues_sq _ _ _ _ _ _ _ _ hN hcs)

/-- C2, amended, at the Hadamard axis `[1, 0, 1]`. -/
theorem rotateAroundAxis_norm_witness :
    hypot (1 : ℝ) 0 1 ≠ 0
      ∧ (rotateAroundAxis ⟨0, 0, 1⟩ (1, 0, 1) π).norm = Vec3.norm ⟨0, 0, 1⟩ :=
  ⟨by simp [hypot], rotateAroundAxis_norm ⟨0, 0, 1⟩ (1, 0, 1) π (by simp [hypot])⟩

/-- C3: rotation by zero is the identity, for `rotateAroundAxis` about every
axis (the zero axis included) and for `rotateAroundX`, `rotateAroundY`,
`rotateAroundZ`. -/
theorem rotate_zero (v : Vec3) (a : ℝ × ℝ × ℝ) :
    rotateAroundAxis v a 0 = v ∧ rotateAroundX v 0 = v
      ∧ rotateAroundY v 0 = v ∧ rotateAroundZ v 0 = v := by
  cases v
  simp [rotateAroundAxis, rotateAroundX, rotateAroundY, rotateAroundZ]

/-- C5: the closed-form rotations about X, Y and Z equal Rodrigues' formula
about the axes `[1,0,0]`, `[0,1,0]`, `[0,0,1]`. -/
theorem rotateAroundXYZ_eq_rotateAroundAxis (v : Vec3) (alpha : ℝ) :
    rotateAroundX v alpha = rotateAroundAxis v (1, 0, 0) alpha
      ∧ rotateAroundY v alpha = rotateAroundAxis v (0, 1, 0) alpha
      ∧ rotateAroundZ v alpha = rotateAroundAxis v (0, 0, 1) alpha := by
  refine ⟨?_, ?_, ?_⟩ <;> ext <;>
    simp [rotateAroundAxis, rotateAroundX, rotateAroundY, rotateAroundZ, hypot, orOne] <;>
    ring

/-- C4: two rotations about one axis of non-zero length compose additively,
`rotateAroundAxis (rotateAroundAxis v a alpha) a beta
  = rotateAroundAxis v a (alpha + beta)`. -/
theorem rotateAroundAxis_add (v : Vec3) (a : ℝ × ℝ × ℝ) (alpha beta : ℝ)
    (ha : hypot a.1 a.2.1 a.2.2 ≠ 0) :
    rotateAroundAxis (rotateAroundAxis v a alpha) a beta
      = rotateAroundAxis v a (alpha + beta) := by
  have hN := axis_unit ha
  ext <;> simp only [rotateAroundAxis, Real.cos_add, Real.sin_add]
  · have h := rodrigues_comp v.x v.y v.z _ _ _ (Real.cos alpha) (Real.sin alpha)
      (Real.cos beta) (Real.sin beta) hN
    linear_combination h
  · have h := rodrigues_comp v.y v.z v.x _ _ _ (Real.cos alpha) (Real.sin alpha)
      (Real.cos beta) (Real.sin beta)
      (show (a.2.1 / orOne (hypot a.1 a.2.1 a.2.2)) ^ 2
          + (a.2.2 / orOne (hypot a.1 a.2.1 a.2.2)) ^ 2
          + (a.1 / orOne (hypot a.1 a.2.1 a.2.2)) ^ 2 = 1 by linarith)
    linear_combination h
  · have h := rodrigues_comp v.z v.x v.y _ _ _ (Real.cos alpha) (Real.sin alpha)
      (Real.cos beta) (Real.sin beta)
      (show (a.2.2 / orOne (hypot a.1 a.2.1 a.2.2)) ^ 2
          + (a.1 / orOne (hypot a.1 a.2.1 a.2.2)) ^ 2
          + (a.2.1 / orOne (hypot a.1 a.2.1 a.2.2)) ^ 2 = 1 by linarith)
    linear_combination h

/-- C4, at the Hadamard axis `[1, 0, 1]` with two quarter turns. -/
theorem rotateAroundAxis_add_witness :
    hypot (1 : ℝ) 0 1 ≠ 0
      ∧ rotateAroundAxis (rotateAroundAxis ⟨0, 0, 1⟩ (1, 0, 1) (π / 2)) (1, 0, 1) (π / 2)
          = rotateAroundAxis ⟨0, 0, 1⟩ (1, 0, 1) (π / 2 + π / 2) :=
  ⟨by simp [hypot], rotateAroundAxis_add ⟨0, 0, 1⟩ (1, 0, 1) (π / 2) (π / 2) (by simp [hypot])⟩

/-! ## Converter: lemmas -/

/-- The call `Math.atan2` recovers the angle of a point given in polar form. -/
theorem atan2_polar {r phi : ℝ} (hr : 0 < r) (h1 : -π < phi) (h2 : phi ≤ π) :
    atan2 (r * Real.sin phi) (r * Real.cos phi) = phi := by
  unfold atan2
  have h : (⟨r * Real.cos phi, r * Real.sin phi⟩ : ℂ)
      = (r : ℂ) * (Complex.cos phi + Complex.sin phi * Complex.I) := by
    apply Complex.ext
    · simp [← Complex.ofReal_cos, ← Complex.ofReal_sin]
    · simp [← Complex.ofReal_cos, ← Complex.ofReal_sin]
  rw [h]
  exact Complex.arg_mul_cos_add_sin_mul_I hr ⟨h1, h2⟩

theorem sphToCart_norm_sq (theta phi : ℝ) :
    (sphToCart theta phi).x * (sphToCart theta phi).x
      + (sphToCart theta phi).y * (sphToCart theta phi).y
      + (sphToCart theta phi).z * (sphToCart theta phi).z = 1 := by
  simp only [sphToCart]
  have h1 := Real.sin_sq_add_cos_sq theta
  have h2 := Real.sin_sq_add_cos_sq phi
  linear_combination h1 + (Real.sin theta) ^ 2 * h2

/-- The radius `r` that `cartToSph` computes for a point of the unit sphere. -/
theorem cartToSph_radius (theta phi : ℝ) :
    orOne (Real.sqrt ((sphToCart theta phi).x * (sphToCart theta phi).x
      + (sphToCart theta phi).y * (sphToCart theta phi).y
      + (sphToCart theta phi).z * (sphToCart theta phi).z)) = 1 := by
  rw [sphToCart_norm_sq]
  simp [orOne]

theorem sphToCart_add_two_pi (theta phi : ℝ) :
    sphToCart theta (phi + 2 * π) = sphToCart theta phi := by
  simp [sphToCart]

/-- The azimuth that `cartToSph` returns away from the poles. -/
theorem cartToSph_sphToCart_phi {theta phi : ℝ} (h0 : 0 < theta) (h1 : theta < π)
    (hp0 : 0 ≤ phi) (hp1 : phi < 2 * π) :
    (cartToSph (sphToCart theta phi)).phi = phi := by
  have hs : 0 < Real.sin theta := Real.sin_pos_of_pos_of_lt_pi h0 h1
  simp only [cartToSph]
  by_cases hle : phi ≤ π
  · have h : atan2 (sphToCart theta phi).y (sphToCart theta phi).x = phi :=
      atan2_polar hs (by linarith) hle
    rw [h, if_neg (not_lt.mpr hp0)]
  · have hlt : π < phi := not_le.mp hle
    have h : atan2 (sphToCart theta phi).y (sphToCart theta phi).x = phi - 2 * π := by
      have h' := @atan2_polar (Real.sin theta) (phi - 2 * π) hs (by linarith) (by linarith)
      rw [Real.sin_sub_two_pi, Real.cos_sub_two_pi] at h'
      exact h'
    rw [h, if_pos (by linarith)]
    ring

/-- The polar angle that `cartToSph` returns for a point of the unit sphere. -/
theorem cartToSph_sphToCart_theta {theta : ℝ} (h0 : 0 ≤ theta) (h1 : theta ≤ π) (phi : ℝ) :
    (cartToSph (sphToCart theta phi)).theta = theta := by
  simp only [cartToSph]
  rw [cartToSph_radius]
  simp only [sphToCart, div_one]
  exact Real.arccos_cos h0 h1

/-- The converter round trip away from the poles. -/
theorem cartToSph_sphToCart_of_mem {theta phi : ℝ} (h0 : 0 < theta) (h1 : theta < π)
    (hp0 : 0 ≤ phi) (hp1 : phi < 2 * π) :
    cartToSph (sphToCart theta phi) = ⟨theta, phi⟩ := by
  ext
  · exact cartToSph_sphToCart_theta h0.le h1.le phi
  · exact cartToSph_sphToCart_phi h0 h1 hp0 hp1

theorem EPS_pos : 0 < EPS := by
  unfold EPS
  norm_num

theorem MathPI_pos : 0 < MathPI := by
  unfold MathPI
  norm_num

/-- The double `Math.PI` lies below `π`. -/
theorem MathPI_lt_pi : MathPI < π := by
  refine lt_trans ?_ Real.pi_gt_d20
  unfold MathPI
  norm_num

/-- The double `Math.PI` lies within `EPS` of `π`: it is a pole in the sense of
`normalizeAngles`. -/
theorem MathPI_pole : |MathPI - π| < EPS := by
  have h1 := MathPI_lt_pi
  have h2 : π < MathPI + EPS := by
    refine lt_trans Real.pi_lt_d20 ?_
    unfold MathPI EPS
    norm_num
  rw [abs_lt]
  constructor <;> linarith

/-- The argument of `Math.acos` in `cartToSph` always lies in `[-1, 1]`, so the
call never yields `NaN` over the reals. -/
theorem cartToSph_acos_arg_mem (v : Vec3) :
    -1 ≤ v.z / orOne (Real.sqrt (v.x * v.x + v.y * v.y + v.z * v.z))
      ∧ v.z / orOne (Real.sqrt (v.x * v.x + v.y * v.y + v.z * v.z)) ≤ 1 := by
  have hnn : 0 ≤ v.x * v.x + v.y * v.y + v.z * v.z := by
    nlinarith [mul_self_nonneg v.x, mul_self_nonneg v.y, mul_self_nonneg v.z]
  have hz : |v.z| ≤ Real.sqrt (v.x * v.x + v.y * v.y + v.z * v.z) := by
    apply Real.abs_le_sqrt
    nlinarith [mul_self_nonneg v.x, mul_self_nonneg v.y]
  rw [← abs_le]
  unfold orOne
  split_ifs with h
  · rw [h] at hz
    simpa using le_trans hz zero_le_one
  · have hpos : 0 < Real.sqrt (v.x * v.x + v.y * v.y + v.z * v.z) :=
      lt_of_le_of_ne (Real.sqrt_nonneg _) (Ne.symm h)
    rw [abs_div, abs_of_pos hpos, div_le_one hpos]
    exact hz

/-! ## Converter: the claim -/

/-- C1, where the claim as stated fails: at `theta = Math.PI`, the value the
program holds for `pi` and a pole in the sense of the data model
(`|theta - π| < EPS`), `cartToSph (sphToCart theta 1)` returns that `theta`
with the `phi = 1` it was given, not `phi = 0`. -/
theorem cartToSph_sphToCart_MathPI :
    |MathPI - π| < EPS
      ∧ cartToSph (sphToCart MathPI 1) = ⟨MathPI, 1⟩
      ∧ (cartToSph (sphToCart MathPI 1)).phi ≠ 0 := by
  have h : cartToSph (sphToCart MathPI 1) = ⟨MathPI, 1⟩ :=
    cartToSph_sphToCart_of_mem MathPI_pos MathPI_lt_pi zero_le_one
      (by linarith [Real.pi_gt_three])
  refine ⟨MathPI_pole, h, ?_⟩
  rw [h]
  exact one_ne_zero

/-- C1, amended: the converter round trip. For `theta` strictly between `0`
and `π` and `phi` in `[0, 2π)`, `cartToSph (sphToCart theta phi)` is
`(theta, phi)` again; at `theta = 0` and at `theta = Math.PI`, with any `phi`,
`anglesFromVec`, that is `cartToSph` followed by `normalizeAngles`, returns that
`theta` with `phi` exactly `0`. -/
theorem converter_round_trip (theta phi : ℝ) :
    (0 < theta → theta < π → 0 ≤ phi → phi < 2 * π →
        cartToSph (sphToCart theta phi) = ⟨theta, phi⟩)
      ∧ anglesFromVec (sphToCart 0 phi) = ⟨0, 0⟩
      ∧ anglesFromVec (sphToCart MathPI phi) = ⟨MathPI, 0⟩ := by
  refine ⟨fun h0 h1 hp0 hp1 => cartToSph_sphToCart_of_mem h0 h1 hp0 hp1, ?_, ?_⟩
  · show normalizeAngles (cartToSph (sphToCart 0 phi)).theta
      (cartToSph (sphToCart 0 phi)).phi = ⟨0, 0⟩
    rw [cartToSph_sphToCart_theta le_rfl Real.pi_pos.le, normalizeAngles,
      if_pos (Or.inl (by simpa using EPS_pos))]
  · show normalizeAngles (cartToSph (sphToCart MathPI phi)).theta
      (cartToSph (sphToCart MathPI phi)).phi = ⟨MathPI, 0⟩
    rw [cartToSph_sphToCart_theta MathPI_pos.le MathPI_lt_pi.le, normalizeAngles,
      if_pos (Or.inr MathPI_pole)]

/-- C1, amended, at the point `theta = π / 2`, `phi = π`. -/
theorem converter_round_trip_witness :
    (0 : ℝ) < π / 2 ∧ π / 2 < π ∧ (0 : ℝ) ≤ π ∧ π < 2 * π
      ∧ cartToSph (sphToCart (π / 2) π) = ⟨π / 2, π⟩ :=
  ⟨by positivity, by linarith [Real.pi_pos], Real.pi_pos.le, by linarith [Real.pi_pos],
   (converter_round_trip (π / 2) π).1 (by positivity) (by linarith [Real.pi_pos])
     Real.pi_pos.le (by linarith [Real.pi_pos])⟩

/-! ## Qubit store: lemmas -/

theorem setQubitAngles_eq_set (i : Nat) (t p : ℝ) (qs : List Qubit) :
    setQubitAngles i t p qs = qs.set i ⟨t, p⟩ := by
  apply List.ext_getElem?
  intro j
  rw [setQubitAngles, List.getElem?_mapIdx, List.getElem?_set]
  by_cases hj : i = j
  · subst hj
    by_cases hlt : i < qs.length
    · simp [hlt, List.getElem?_eq_getElem hlt]
    · simp [hlt, List.getElem?_eq_none (not_lt.mp hlt)]
  · have hj' : ¬ j = i := fun h => hj h.symm
    simp only [hj, hj', if_false]
    cases qs[j]? <;> rfl

theorem set_of_getElem? {qs : List Qubit} {i : Nat} {q : Qubit} (h : qs[i]? = some q) :
    qs.set i q = qs := by
  apply List.ext_getElem?
  intro j
  rw [List.getElem?_set]
  by_cases hj : i = j
  · subst hj
    obtain ⟨hlt, _⟩ := List.getElem?_eq_some.mp h
    simp [hlt, h]
  · simp [hj]

/-- One frame writes the normalised angles of the rotated snapshot vector at
the animated index and nothing else. -/
theorem onUpdate_eq (a : Animation) (alpha : ℝ) (s : Sim) (q : Qubit)
    (hq : a.qubits[a.index]? = some q) :
    onUpdate a alpha s = some { s with
      qubits := s.qubits.set a.index
        (anglesFromVec (rotateBy a.axis (sphToCart q.theta q.phi) alpha)).toQubit } := by
  simp [onUpdate, vecOf, hq, setQubitAngles_eq_set, anglesFromVec, TP.toQubit]

/-- Frames overwrite one another: after any frames and a last one at `alpha`,
the store holds what the last frame wrote. -/
theorem runFrames_last (a : Animation) (q : Qubit) (hq : a.qubits[a.index]? = some q)
    (alpha : ℝ) (frames : List ℝ) (s : Sim) :
    runFrames a (frames ++ [alpha]) s = some { s with
      qubits := s.qubits.set a.index
        (anglesFromVec (rotateBy a.axis (sphToCart q.theta q.phi) alpha)).toQubit } := by
  induction frames generalizing s with
  | nil => simp [runFrames, onUpdate_eq a alpha s q hq]
  | cons f rest ih =>
    have hstep : runFrames a ((f :: rest) ++ [alpha]) s
        = (onUpdate a f s).bind (runFrames a (rest ++ [alpha])) := rfl
    rw [hstep, onUpdate_eq a f s q hq, Option.some_bind, ih]
    simp [List.set_set]

/-- An animation that runs to its end leaves the state its last frame wrote,
clears the busy flag and logs its label. -/
theorem runAnimation_eq (a : Animation) (q : Qubit) (hq : a.qubits[a.index]? = some q)
    (frames : List ℝ) (s : Sim) :
    runAnimation a frames s = some
      { qubits := s.qubits.set a.index
          (anglesFromVec (rotateBy a.axis (sphToCart q.theta q.phi) a.angle)).toQubit
        selected := s.selected
        animating := false
        history := s.history ++ [a.label]
        lastAppliedGate := s.lastAppliedGate } := by
  simp [runAnimation, runFrames_last a q hq, onComplete]

/-- A call of `applyAxisRotationOn` on an idle store, carried through: the
qubit at `index` becomes the normalised angles of its rotated vector, the busy
flag is clear again and the label is logged. -/
theorem finish_applyAxisRotationOn (s : Sim) (index : Nat) (axis : Axis) (angle : ℝ)
    (label : String) (frames : List ℝ) (q : Qubit)
    (hb : s.animating = false) (hq : s.qubits[index]? = some q) :
    finish frames (applyAxisRotationOn s index axis angle label) = some
      { qubits := s.qubits.set index
          (anglesFromVec (rotateBy axis (sphToCart q.theta q.phi) angle)).toQubit
        selected := s.selected
        animating := false
        history := s.history ++ [label]
        lastAppliedGate := s.lastAppliedGate } := by
  simp only [applyAxisRotationOn, hb, finish]
  exact runAnimation_eq _ q hq frames _

theorem normalizeAngles_of_pole {t : ℝ} (p : ℝ) (h : |t| < EPS ∨ |t - π| < EPS) :
    normalizeAngles t p = ⟨t, 0⟩ := by
  simp [normalizeAngles, h]

theorem normalizeAngles_of_not_pole {t : ℝ} (p : ℝ) (h : ¬ (|t| < EPS ∨ |t - π| < EPS)) :
    normalizeAngles t p = ⟨t, p⟩ := by
  simp only [normalizeAngles, if_neg h]

/-- On a state of the data model `normalizeAngles` changes nothing. -/
theorem normalizeAngles_wellFormed {q : Qubit} (h : q.WellFormed) :
    normalizeAngles q.theta q.phi = ⟨q.theta, q.phi⟩ := by
  obtain ⟨_, _, _, _, hpole⟩ := h
  by_cases hp : |q.theta| < EPS ∨ |q.theta - π| < EPS
  · rw [normalizeAngles_of_pole _ hp, hpole hp]
  · exact normalizeAngles_of_not_pole _ hp

/-- Converting a point of the unit sphere back and normalising gives the
normalised angles it came from. -/
theorem anglesFromVec_sphToCart {theta phi : ℝ} (h0 : 0 ≤ theta) (h1 : theta ≤ π)
    (hp0 : 0 ≤ phi) (hp1 : phi < 2 * π) :
    anglesFromVec (sphToCart theta phi) = normalizeAngles theta phi := by
  by_cases hp : |theta| < EPS ∨ |theta - π| < EPS
  · show normalizeAngles (cartToSph (sphToCart theta phi)).theta
      (cartToSph (sphToCart theta phi)).phi = _
    rw [cartToSph_sphToCart_theta h0 h1, normalizeAngles_of_pole _ hp,
      normalizeAngles_of_pole _ hp]
  · have h0' : 0 < theta := by
      rcases h0.eq_or_lt with h | h
      · exact absurd (Or.inl (by simpa [← h] using EPS_pos)) hp
      · exact h
    have h1' : theta < π := by
      rcases h1.eq_or_lt with h | h
      · exact absurd (Or.inr (by simpa [h] using EPS_pos)) hp
      · exact h
    rw [anglesFromVec, cartToSph_sphToCart_of_mem h0' h1' hp0 hp1]

theorem wellFormed_zero : Qubit.WellFormed ⟨0, 0⟩ :=
  ⟨le_rfl, Real.pi_pos.le, le_rfl, by positivity, fun _ => rfl⟩

/-- The handler of X on an idle store, carried through. -/
theorem commitGate_X (s : Sim) (q : Qubit) (frames : List ℝ)
    (hb : s.animating = false) (hq : s.qubits[s.selected]? = some q) :
    commitGate .X frames s = some
      { qubits := s.qubits.set s.selected
          (anglesFromVec (rotateAroundX (sphToCart q.theta q.phi) π)).toQubit
        selected := s.selected
        animating := false
        history := s.history ++ ["x q[" ++ toString s.selected ++ "]"]
        lastAppliedGate := some "x" } := by
  have h := finish_applyAxisRotationOn (s.withLast "x") s.selected (.str "x") π
    ("x q[" ++ toString s.selected ++ "]") frames q hb hq
  simpa [commitGate, applyGate, applyX, rotateBy, Sim.withLast] using h

/-- The handler of CNOT on an idle store of at least two qubits, carried
through. -/
theorem commitGate_CNOT (c t : Qubit) (rest : List Qubit) (sel : Nat) (hist : List String)
    (last : Option String) (frames : List ℝ) :
    commitGate .CNOT frames ⟨c :: t :: rest, sel, false, hist, last⟩ = some
      { qubits := c :: (anglesFromVec (rotateAroundX (sphToCart t.theta t.phi)
                    (π * ((1 - Real.cos c.theta) / 2)))).toQubit :: rest
        selected := sel
        animating := false
        history := hist ++ ["cx q[0],q[1]"]
        lastAppliedGate := some "cx" } := by
  have h := finish_applyAxisRotationOn
    (Sim.withLast ⟨c :: t :: rest, sel, false, hist, last⟩ "cx") 1 (.str "x")
    (π * ((1 - Real.cos c.theta) / 2)) "cx q[0],q[1]" frames t rfl
    (by simp [Sim.withLast])
  have hl : "cx q[" ++ toString 0 ++ "],q[" ++ toString 1 ++ "]" = "cx q[0],q[1]" := by
    decide
  simpa [commitGate, applyGate, applyCNOT, probOne, rotateBy, Sim.withLast, hl] using h

/-- The handler of CZ on an idle store of at least two qubits, carried
through. -/
theorem commitGate_CZ (c t : Qubit) (rest : List Qubit) (sel : Nat) (hist : List String)
    (last : Option String) (frames : List ℝ) :
    commitGate .CZ frames ⟨c :: t :: rest, sel, false, hist, last⟩ = some
      { qubits := c :: (anglesFromVec (rotateAroundZ (sphToCart t.theta t.phi)
                    (π * ((1 - Real.cos c.theta) / 2)))).toQubit :: rest
        selected := sel
        animating := false
        history := hist ++ ["cz q[0],q[1]"]
        lastAppliedGate := some "cz" } := by
  have h := finish_applyAxisRotationOn
    (Sim.withLast ⟨c :: t :: rest, sel, false, hist, last⟩ "cz") 1 (.str "z")
    (π * ((1 - Real.cos c.theta) / 2)) "cz q[0],q[1]" frames t rfl
    (by simp [Sim.withLast])
  have hl : "cz q[" ++ toString 0 ++ "],q[" ++ toString 1 ++ "]" = "cz q[0],q[1]" := by
    decide
  simpa [commitGate, applyGate, applyCZ, probOne, rotateBy, Sim.withLast, hl] using h

/-- The handler of CCX on an idle store of at least three qubits, carried
through. -/
theorem commitGate_CCX (c1 c2 t : Qubit) (rest : List Qubit) (sel : Nat)
    (hist : List String) (last : Option String) (frames : List ℝ) :
    commitGate .CCX frames ⟨c1 :: c2 :: t :: rest, sel, false, hist, last⟩ = some
      { qubits := c1 :: c2 :: (anglesFromVec (rotateAroundX (sphToCart t.theta t.phi)
                    (π * ((1 - Real.cos c1.theta) / 2 * ((1 - Real.cos c2.theta) / 2))))).toQubit
                  :: rest
        selected := sel
        animating := false
        history := hist ++ ["ccx q[0],q[1] -> q[2]"]
        lastAppliedGate := some "ccx" } := by
  have h := finish_applyAxisRotationOn
    (Sim.withLast ⟨c1 :: c2 :: t :: rest, sel, false, hist, last⟩ "ccx") 2 (.str "x")
    (π * ((1 - Real.cos c1.theta) / 2 * ((1 - Real.cos c2.theta) / 2)))
    "ccx q[0],q[1] -> q[2]" frames t rfl (by simp [Sim.withLast])
  have hl : "ccx q[" ++ toString 0 ++ "],q[" ++ toString 1 ++ "] -> q[" ++ toString 2 ++ "]"
      = "ccx q[0],q[1] -> q[2]" := by
    decide
  simpa [commitGate, applyGate, applyCCX, probOne, rotateBy, Sim.withLast, hl] using h

/-- A rotation by the angle `0` writes a state of the data model back
unchanged. -/
theorem anglesFromVec_rotateAroundX_zero {q : Qubit} (h : q.WellFormed) :
    (anglesFromVec (rotateAroundX (sphToCart q.theta q.phi) 0)).toQubit = q := by
  have hid : rotateAroundX (sphToCart q.theta q.phi) 0 = sphToCart q.theta q.phi := by
    ext <;> simp [rotateAroundX]
  rw [hid, anglesFromVec_sphToCart h.1 h.2.1 h.2.2.1 h.2.2.2.1, normalizeAngles_wellFormed h]
  rfl

/-! ## Gates: the claims -/

/-- C8: SWAP is an exact relabelling. On an idle store of at least two qubits
`applySWAP` starts no animation, puts the state of `q[1]` at `q[0]` and the
state of `q[0]` at `q[1]` verbatim, and keeps every further qubit; applied
twice it restores the qubit collection exactly. -/
theorem applySWAP_applySWAP (s : Sim) (h2 : 2 ≤ s.qubits.length)
    (hb : s.animating = false) :
    ∃ s1 s2, applySWAP s = some (s1, none) ∧ applySWAP s1 = some (s2, none)
      ∧ s1.qubits[0]? = s.qubits[1]? ∧ s1.qubits[1]? = s.qubits[0]?
      ∧ s1.qubits.drop 2 = s.qubits.drop 2
      ∧ s2.qubits = s.qubits := by
  obtain ⟨qs, sel, busy, hist, last⟩ := s
  match qs, h2 with
  | a :: b :: rest, _ =>
    simp only at hb
    subst hb
    refine ⟨⟨b :: a :: rest, sel, false, hist ++ ["swap q[0],q[1]"], some "swap"⟩,
      ⟨a :: b :: rest, sel, false, hist ++ ["swap q[0],q[1]"] ++ ["swap q[0],q[1]"],
        some "swap"⟩, ?_, ?_, ?_, ?_, ?_, ?_⟩ <;>
      simp [applySWAP, swapUpdater, Sim.withLast]

/-- C8, on a store of three qubits. -/
theorem applySWAP_applySWAP_witness :
    ∃ s1 s2, applySWAP ⟨[⟨π, 0⟩, ⟨π / 2, 0⟩, ⟨π / 2, π⟩], 0, false, [], none⟩
          = some (s1, none)
      ∧ applySWAP s1 = some (s2, none)
      ∧ s1.qubits[0]? = some ⟨π / 2, 0⟩ ∧ s1.qubits[1]? = some ⟨π, 0⟩
      ∧ s1.qubits.drop 2 = [⟨π / 2, π⟩]
      ∧ s2.qubits = [⟨π, 0⟩, ⟨π / 2, 0⟩, ⟨π / 2, π⟩] :=
  applySWAP_applySWAP ⟨[⟨π, 0⟩, ⟨π / 2, 0⟩, ⟨π / 2, π⟩], 0, false, [], none⟩ (by decide) rfl

/-- A call of `applyAxisRotationOn` on a busy store, after `setLastAppliedGate`,
starts no animation and changes nothing but `lastAppliedGate`. -/
theorem rejected_axis (s : Sim) (g : String) (index : Nat) (axis : Axis) (angle : ℝ)
    (label : String) (hb : s.animating = true) :
    ∃ s', some (applyAxisRotationOn (s.withLast g) index axis angle label) = some (s', none)
      ∧ s'.qubits = s.qubits ∧ s'.selected = s.selected
      ∧ s'.animating = s.animating ∧ s'.history = s.history
      ∧ ∀ frames, finish frames (applyAxisRotationOn (s.withLast g) index axis angle label)
          = some s' := by
  refine ⟨s.withLast g, ?_, rfl, rfl, rfl, rfl, ?_⟩ <;>
    simp [applyAxisRotationOn, Sim.withLast, finish, hb]

/-- C9: rejected gates change nothing. If the busy flag is set when a handler
is invoked, or the collection holds fewer qubits than the guard of the handler
asks for (2 for CNOT, CZ, SWAP, iSWAP; 3 for CCX, CSWAP), the handler starts
no animation and leaves the qubit collection, the selected index, the busy
flag and the history log as they were. -/
theorem rejected_gate (g : Gate) (s : Sim)
    (h : s.animating = true ∨ s.qubits.length < g.qubitsNeeded) :
    ∃ s', applyGate g s = some (s', none)
      ∧ s'.qubits = s.qubits ∧ s'.selected = s.selected
      ∧ s'.animating = s.animating ∧ s'.history = s.history
      ∧ ∀ frames, commitGate g frames s = some s' := by
  cases g
  case CNOT | CZ | SWAP | ISWAP =>
    have hg : (decide (s.qubits.length < 2) || s.animating) = true := by
      rcases h with h | h
      · simp [h]
      · simp [show s.qubits.length < 2 from h]
    refine ⟨s, ?_, rfl, rfl, rfl, rfl, ?_⟩ <;>
      simp [commitGate, finish, applyGate, applyCNOT, applyCZ, applySWAP, applyISWAP, hg]
  case CCX | CSWAP =>
    have hg : (decide (s.qubits.length < 3) || s.animating) = true := by
      rcases h with h | h
      · simp [h]
      · simp [show s.qubits.length < 3 from h]
    refine ⟨s, ?_, rfl, rfl, rfl, rfl, ?_⟩ <;>
      simp [commitGate, finish, applyGate, applyCCX, applyCSWAP, hg]
  all_goals
    have hb : s.animating = true := by
      rcases h with h | h
      · exact h
      · exact absurd h (Nat.not_lt_zero _)
    simp only [commitGate, applyGate, applyX, applyY, applyZ, applyH, applyS, applySdg,
      applyT, applyTdg, Option.some_bind]
    exact rejected_axis s _ _ _ _ _ hb

/-- C9, for CCX requested on a store of two qubits. -/
theorem rejected_gate_witness :
    ∃ s', applyGate .CCX ⟨[⟨π, 0⟩, ⟨0, 0⟩], 0, false, ["x q[0]"], some "x"⟩ = some (s', none)
      ∧ s'.qubits = [⟨π, 0⟩, ⟨0, 0⟩] ∧ s'.selected = 0
      ∧ s'.animating = false ∧ s'.history = ["x q[0]"]
      ∧ ∀ frames, commitGate .CCX frames ⟨[⟨π, 0⟩, ⟨0, 0⟩], 0, false, ["x q[0]"], some "x"⟩
          = some s' :=
  rejected_gate .CCX ⟨[⟨π, 0⟩, ⟨0, 0⟩], 0, false, ["x q[0]"], some "x"⟩
    (Or.inr (by decide))

/-! ## Collection: the claims -/

/-- C10, as stated, fails: removing the only qubit leaves that qubit as it is,
here at `theta = π` (the store after one X gate), not at the default state. -/
theorem removeSelected_only_qubit_kept :
    (removeSelected ⟨[⟨π, 0⟩], 0, false, ["x q[0]"], some "x"⟩).qubits = [⟨π, 0⟩]
      ∧ (removeSelected ⟨[⟨π, 0⟩], 0, false, ["x q[0]"], some "x"⟩).qubits ≠ [⟨0, 0⟩] := by
  constructor <;> simp [removeSelected, Real.pi_ne_zero]

/-- C10, amended: removing the only qubit is a no-op. For every one-qubit
collection the remove-selected operation leaves the whole state unchanged, so
the collection still holds exactly that one qubit with the `(theta, phi)` it
had. -/
theorem removeSelected_single (s : Sim) (q : Qubit) (h : s.qubits = [q]) :
    removeSelected s = s ∧ (removeSelected s).qubits = [q] := by
  have hs : removeSelected s = s := by
    simp [removeSelected, h]
  exact ⟨hs, by rw [hs, h]⟩

/-- C10, amended, on a one-qubit store at `theta = π / 2`. -/
theorem removeSelected_single_witness :
    removeSelected ⟨[⟨π / 2, 0⟩], 0, false, [], none⟩ = ⟨[⟨π / 2, 0⟩], 0, false, [], none⟩
      ∧ (removeSelected ⟨[⟨π / 2, 0⟩], 0, false, [], none⟩).qubits = [⟨π / 2, 0⟩] :=
  removeSelected_single ⟨[⟨π / 2, 0⟩], 0, false, [], none⟩ ⟨π / 2, 0⟩ rfl

/-! ## Single-qubit gates: lemmas -/

/-- A single-qubit handler on an idle store, carried through: the handler is
`applyAxisRotationOn` on the selected qubit after `setLastAppliedGate`. -/
theorem finish_single (s : Sim) (g : String) (axis : Axis) (angle : ℝ) (label : String)
    (frames : List ℝ) (q : Qubit) (hb : s.animating = false)
    (hq : s.qubits[s.selected]? = some q) :
    ∃ s', finish frames (applyAxisRotationOn (s.withLast g) s.selected axis angle label)
        = some s'
      ∧ s'.qubits = s.qubits.set s.selected
          (anglesFromVec (rotateBy axis (sphToCart q.theta q.phi) angle)).toQubit
      ∧ s'.selected = s.selected ∧ s'.animating = false := by
  have h := finish_applyAxisRotationOn (s.withLast g) s.selected axis angle label frames q
    hb hq
  exact ⟨_, h, rfl, rfl, rfl⟩

/-- A rotation about Z adds to the azimuth. -/
theorem rotateAroundZ_sphToCart (theta phi alpha : ℝ) :
    rotateAroundZ (sphToCart theta phi) alpha = sphToCart theta (phi + alpha) := by
  ext <;> simp only [rotateAroundZ, sphToCart, Real.cos_add, Real.sin_add] <;> ring

/-- The converter round trip away from the poles, for any azimuth: the azimuth
comes back reduced into `[0, 2π)`. -/
theorem cartToSph_sphToCart_toIcoMod {theta : ℝ} (h0 : 0 < theta) (h1 : theta < π)
    (psi : ℝ) :
    cartToSph (sphToCart theta psi)
      = ⟨theta, toIcoMod Real.two_pi_pos 0 psi⟩ := by
  have hmem := toIcoMod_mem_Ico Real.two_pi_pos 0 psi
  have hper : sphToCart theta psi = sphToCart theta (toIcoMod Real.two_pi_pos 0 psi) := by
    rw [← self_sub_toIcoDiv_zsmul Real.two_pi_pos 0 psi]
    simp only [sphToCart, zsmul_eq_mul, Real.sin_sub_int_mul_two_pi,
      Real.cos_sub_int_mul_two_pi]
  rw [hper]
  exact cartToSph_sphToCart_of_mem h0 h1 hmem.1 (by simpa using hmem.2)

/-- The state a committed rotation about Z writes over a state away from the
poles. -/
theorem zshift {q : Qubit} (h0 : EPS ≤ q.theta) (h1 : q.theta ≤ π - EPS) (alpha : ℝ) :
    (anglesFromVec (rotateAroundZ (sphToCart q.theta q.phi) alpha)).toQubit
      = ⟨q.theta, toIcoMod Real.two_pi_pos 0 (q.phi + alpha)⟩ := by
  have hE := EPS_pos
  have hnp : ¬ (|q.theta| < EPS ∨ |q.theta - π| < EPS) := by
    rintro (h | h)
    · rw [abs_of_nonneg (by linarith)] at h
      linarith
    · rw [abs_sub_comm, abs_of_nonneg (by linarith)] at h
      linarith
  rw [rotateAroundZ_sphToCart, anglesFromVec,
    cartToSph_sphToCart_toIcoMod (by linarith) (by linarith)]
  simp only [normalizeAngles_of_not_pole _ hnp, TP.toQubit]

/-- Reducing into `[0, 2π)`, shifting by `alpha`, reducing, shifting back and
reducing again gives the azimuth one started from. -/
theorem toIcoMod_shift_back {phi : ℝ} (hp0 : 0 ≤ phi) (hp1 : phi < 2 * π) (alpha : ℝ) :
    toIcoMod Real.two_pi_pos 0 (toIcoMod Real.two_pi_pos 0 (phi + alpha) + -alpha) = phi := by
  rw [toIcoMod_eq_iff]
  refine ⟨⟨hp0, by simpa using hp1⟩, -toIcoDiv Real.two_pi_pos 0 (phi + alpha), ?_⟩
  have h := toIcoMod_add_toIcoDiv_zsmul Real.two_pi_pos 0 (phi + alpha)
  rw [neg_smul]
  linarith

/-- A handler that rotates the selected qubit about Z, carried through on an
idle store whose selected qubit is away from the poles. -/
theorem commit_zshift (s : Sim) (q : Qubit) (frames : List ℝ) (hb : s.animating = false)
    (hq : s.qubits[s.selected]? = some q) (h0 : EPS ≤ q.theta) (h1 : q.theta ≤ π - EPS)
    (g : String) (alpha : ℝ) (label : String) :
    ∃ s', finish frames (applyAxisRotationOn (s.withLast g) s.selected (.str "z") alpha label)
        = some s'
      ∧ s'.qubits = s.qubits.set s.selected
          ⟨q.theta, toIcoMod Real.two_pi_pos 0 (q.phi + alpha)⟩
      ∧ s'.selected = s.selected ∧ s'.animating = false := by
  obtain ⟨s', h, hqs, hsel, hb'⟩ := finish_single s g (.str "z") alpha label frames q hb hq
  refine ⟨s', h, ?_, hsel, hb'⟩
  rw [hqs]
  have hz : rotateBy (.str "z") (sphToCart q.theta q.phi) alpha
      = rotateAroundZ (sphToCart q.theta q.phi) alpha := by
    simp [rotateBy]
  rw [hz, zshift h0 h1]

/-- Two handlers that rotate the selected qubit about Z by opposite angles,
carried through one after the other, restore the collection. -/
theorem commit_zshift_back (s : Sim) (q : Qubit) (frames frames' : List ℝ)
    (hb : s.animating = false) (hq : s.qubits[s.selected]? = some q)
    (h0 : EPS ≤ q.theta) (h1 : q.theta ≤ π - EPS) (hp0 : 0 ≤ q.phi) (hp1 : q.phi < 2 * π)
    (g g' : String) (alpha : ℝ) (label : String) (label' : Sim → String) :
    ∃ s1 s2,
      finish frames (applyAxisRotationOn (s.withLast g) s.selected (.str "z") alpha label)
        = some s1
      ∧ finish frames' (applyAxisRotationOn (s1.withLast g') s1.selected (.str "z") (-alpha)
          (label' s1)) = some s2
      ∧ s2.qubits = s.qubits := by
  obtain ⟨hlt, _⟩ := List.getElem?_eq_some.mp hq
  obtain ⟨s1, h1', hqs1, hsel1, hb1⟩ :=
    commit_zshift s q frames hb hq h0 h1 g alpha label
  have hq1 : s1.qubits[s1.selected]?
      = some ⟨q.theta, toIcoMod Real.two_pi_pos 0 (q.phi + alpha)⟩ := by
    rw [hqs1, hsel1]
    simp [List.getElem?_set, hlt]
  obtain ⟨s2, h2', hqs2, _, _⟩ :=
    commit_zshift s1 ⟨q.theta, toIcoMod Real.two_pi_pos 0 (q.phi + alpha)⟩ frames' hb1 hq1
      h0 h1 g' (-alpha) (label' s1)
  refine ⟨s1, s2, h1', h2', ?_⟩
  rw [hqs2, hqs1, hsel1, List.set_set]
  simp only [toIcoMod_shift_back hp0 hp1 alpha]
  exact set_of_getElem? hq

/-! ## Single-qubit gates: the claims -/

/-- C19: the gates about Z shift only the azimuth. On an idle store whose
selected qubit has `theta` in `[EPS, π - EPS]` and `phi` in `[0, 2π)`,
committing Z, S, S†, T or T† keeps `theta` and writes `phi + alpha` reduced
into `[0, 2π)`, with `alpha = π, π/2, -π/2, π/4, -π/4`; S then S†, and T then
T†, restore the collection. -/
theorem z_axis_gates (s : Sim) (q : Qubit) (frames frames' : List ℝ)
    (hb : s.animating = false) (hq : s.qubits[s.selected]? = some q)
    (h0 : EPS ≤ q.theta) (h1 : q.theta ≤ π - EPS) (hp0 : 0 ≤ q.phi) (hp1 : q.phi < 2 * π) :
    (∃ s', commitGate .Z frames s = some s' ∧ s'.qubits = s.qubits.set s.selected
        ⟨q.theta, toIcoMod Real.two_pi_pos 0 (q.phi + π)⟩)
      ∧ (∃ s', commitGate .S frames s = some s' ∧ s'.qubits = s.qubits.set s.selected
        ⟨q.theta, toIcoMod Real.two_pi_pos 0 (q.phi + π / 2)⟩)
      ∧ (∃ s', commitGate .Sdg frames s = some s' ∧ s'.qubits = s.qubits.set s.selected
        ⟨q.theta, toIcoMod Real.two_pi_pos 0 (q.phi + -π / 2)⟩)
      ∧ (∃ s', commitGate .T frames s = some s' ∧ s'.qubits = s.qubits.set s.selected
        ⟨q.theta, toIcoMod Real.two_pi_pos 0 (q.phi + π / 4)⟩)
      ∧ (∃ s', commitGate .Tdg frames s = some s' ∧ s'.qubits = s.qubits.set s.selected
        ⟨q.theta, toIcoMod Real.two_pi_pos 0 (q.phi + -π / 4)⟩)
      ∧ (∃ s1 s2, commitGate .S frames s = some s1 ∧ commitGate .Sdg frames' s1 = some s2
        ∧ s2.qubits = s.qubits)
      ∧ (∃ s1 s2, commitGate .T frames s = some s1 ∧ commitGate .Tdg frames' s1 = some s2
        ∧ s2.qubits = s.qubits) := by
  refine ⟨?_, ?_, ?_, ?_, ?_, ?_, ?_⟩
  · obtain ⟨s', h, hqs, _, _⟩ := commit_zshift s q frames hb hq h0 h1 "z" π
      ("z q[" ++ toString s.selected ++ "]")
    exact ⟨s', h, hqs⟩
  · obtain ⟨s', h, hqs, _, _⟩ := commit_zshift s q frames hb hq h0 h1 "s" (π / 2)
      ("s q[" ++ toString s.selected ++ "]")
    exact ⟨s', h, hqs⟩
  · obtain ⟨s', h, hqs, _, _⟩ := commit_zshift s q frames hb hq h0 h1 "sdg" (-π / 2)
      ("sdg q[" ++ toString s.selected ++ "]")
    exact ⟨s', h, hqs⟩
  · obtain ⟨s', h, hqs, _, _⟩ := commit_zshift s q frames hb hq h0 h1 "t" (π / 4)
      ("t q[" ++ toString s.selected ++ "]")
    exact ⟨s', h, hqs⟩
  · obtain ⟨s', h, hqs, _, _⟩ := commit_zshift s q frames hb hq h0 h1 "tdg" (-π / 4)
      ("tdg q[" ++ toString s.selected ++ "]")
    exact ⟨s', h, hqs⟩
  · obtain ⟨s1, s2, h1', h2', hqs⟩ := commit_zshift_back s q frames frames' hb hq h0 h1
      hp0 hp1 "s" "sdg" (π / 2) ("s q[" ++ toString s.selected ++ "]")
      (fun s1 => "sdg q[" ++ toString s1.selected ++ "]")
    rw [show -(π / 2) = -π / 2 by ring] at h2'
    exact ⟨s1, s2, h1', h2', hqs⟩
  · obtain ⟨s1, s2, h1', h2', hqs⟩ := commit_zshift_back s q frames frames' hb hq h0 h1
      hp0 hp1 "t" "tdg" (π / 4) ("t q[" ++ toString s.selected ++ "]")
      (fun s1 => "tdg q[" ++ toString s1.selected ++ "]")
    rw [show -(π / 4) = -π / 4 by ring] at h2'
    exact ⟨s1, s2, h1', h2', hqs⟩

theorem EPS_le_half_pi : EPS ≤ π / 2 ∧ π / 2 ≤ π - EPS := by
  have h := Real.pi_gt_three
  unfold EPS
  constructor <;> norm_num <;> linarith

/-- C19, on a one-qubit store at the +x point `theta = π / 2`, `phi = 0`. -/
theorem z_axis_gates_witness :
    (∃ s', commitGate .Z [] ⟨[⟨π / 2, 0⟩], 0, false, [], none⟩ = some s'
        ∧ s'.qubits = [⟨π / 2, toIcoMod Real.two_pi_pos 0 (0 + π)⟩])
      ∧ (∃ s1 s2, commitGate .S [] ⟨[⟨π / 2, 0⟩], 0, false, [], none⟩ = some s1
        ∧ commitGate .Sdg [] s1 = some s2 ∧ s2.qubits = [⟨π / 2, 0⟩]) :=
  have h := z_axis_gates ⟨[⟨π / 2, 0⟩], 0, false, [], none⟩ ⟨π / 2, 0⟩ [] [] rfl rfl
    EPS_le_half_pi.1 EPS_le_half_pi.2 le_rfl Real.two_pi_pos
  ⟨h.1, h.2.2.2.2.2.1⟩

/-! ## Controlled gates: lemmas -/

theorem not_pole_of_mem {t : ℝ} (h0 : EPS ≤ t) (h1 : t ≤ π - EPS) :
    ¬ (|t| < EPS ∨ |t - π| < EPS) := by
  have hE := EPS_pos
  rintro (h | h)
  · rw [abs_of_nonneg (by linarith)] at h
    linarith
  · rw [abs_sub_comm, abs_of_nonneg (by linarith)] at h
    linarith

theorem cos_three_pi_div_two : Real.cos (3 * π / 2) = 0 := by
  rw [show 3 * π / 2 = π / 2 + π by ring, Real.cos_add_pi, Real.cos_pi_div_two, neg_zero]

theorem sin_three_pi_div_two : Real.sin (3 * π / 2) = -1 := by
  rw [show 3 * π / 2 = π / 2 + π by ring, Real.sin_add_pi, Real.sin_pi_div_two]

/-- A turn of the north pole about X by `alpha` in `[EPS, π - EPS]` is written
as the polar angle `alpha` on the meridian `phi = 3π/2`. -/
theorem xturn_north {alpha : ℝ} (h0 : EPS ≤ alpha) (h1 : alpha ≤ π - EPS) :
    (anglesFromVec (rotateAroundX (sphToCart 0 0) alpha)).toQubit = ⟨alpha, 3 * π / 2⟩ := by
  have hE := EPS_pos
  have hpi := Real.pi_pos
  have hv : rotateAroundX (sphToCart 0 0) alpha = sphToCart alpha (3 * π / 2) := by
    ext <;> simp [rotateAroundX, sphToCart, cos_three_pi_div_two, sin_three_pi_div_two]
  rw [hv, anglesFromVec_sphToCart (by linarith) (by linarith) (by positivity) (by linarith),
    normalizeAngles_of_not_pole _ (not_pole_of_mem h0 h1)]
  rfl

theorem EPS_le_quarter_pi : EPS ≤ π / 4 ∧ π / 4 ≤ π - EPS := by
  have h := Real.pi_gt_three
  unfold EPS
  constructor <;> norm_num <;> linarith

/-! ## Controlled gates: the claim -/

/-- C7: the controlled gates rotate their target by a probability-weighted
angle computed from the state at invocation. With `p θ = (1 - cos θ) / 2` and
the target's vector `(x, y, z) = (sin θ cos φ, sin θ sin φ, cos θ)`, on an idle
store CNOT carried through writes to `q[1]` the normalised angles of
`(x, y cos α - z sin α, y sin α + z cos α)` with `α = π * p θ₀`, CZ those of
`(x cos α - y sin α, x sin α + y cos α, z)` with the same `α`, and CCX writes
to `q[2]` those of the turn about X by `α = π * (p θ₀ * p θ₁)`; the other
qubits are unchanged. Hence CNOT with the control at `theta = 0` leaves a
target of the data model unchanged, CNOT with the control at `theta = π`
leaves the same collection as the X gate applied to `q[1]`, and CNOT on a
target at `|0⟩` writes the polar angle `π * p θ₀` itself, on the meridian
`phi = 3π/2`, whenever that angle lies in `[EPS, π - EPS]`. With the controls at
`theta = π/2`: CCX turns a target at `|0⟩` to `{π/4, 3π/2}` and CZ turns a
target at `{π/2, 0}` to `{π/2, π/2}`. -/
theorem controlled_gates (c t u : Qubit) (rest : List Qubit) (sel : Nat)
    (hist : List String) (last : Option String) (frames frames' : List ℝ) :
    (∃ s', commitGate .CNOT frames ⟨c :: t :: rest, sel, false, hist, last⟩ = some s'
        ∧ s'.qubits = c :: (anglesFromVec
            ⟨Real.sin t.theta * Real.cos t.phi,
             Real.sin t.theta * Real.sin t.phi * Real.cos (π * ((1 - Real.cos c.theta) / 2))
               - Real.cos t.theta * Real.sin (π * ((1 - Real.cos c.theta) / 2)),
             Real.sin t.theta * Real.sin t.phi * Real.sin (π * ((1 - Real.cos c.theta) / 2))
               + Real.cos t.theta * Real.cos (π * ((1 - Real.cos c.theta) / 2))⟩).toQubit
            :: rest)
      ∧ (∃ s', commitGate .CZ frames ⟨c :: t :: rest, sel, false, hist, last⟩ = some s'
        ∧ s'.qubits = c :: (anglesFromVec
            ⟨Real.sin t.theta * Real.cos t.phi * Real.cos (π * ((1 - Real.cos c.theta) / 2))
               - Real.sin t.theta * Real.sin t.phi
                  * Real.sin (π * ((1 - Real.cos c.theta) / 2)),
             Real.sin t.theta * Real.cos t.phi * Real.sin (π * ((1 - Real.cos c.theta) / 2))
               + Real.sin t.theta * Real.sin t.phi
                  * Real.cos (π * ((1 - Real.cos c.theta) / 2)),
             Real.cos t.theta⟩).toQubit
            :: rest)
      ∧ (∃ s', commitGate .CCX frames ⟨c :: t :: u :: rest, sel, false, hist, last⟩ = some s'
        ∧ s'.qubits = c :: t :: (anglesFromVec
            ⟨Real.sin u.theta * Real.cos u.phi,
             Real.sin u.theta * Real.sin u.phi
                 * Real.cos (π * ((1 - Real.cos c.theta) / 2 * ((1 - Real.cos t.theta) / 2)))
               - Real.cos u.theta
                 * Real.sin (π * ((1 - Real.cos c.theta) / 2 * ((1 - Real.cos t.theta) / 2))),
             Real.sin u.theta * Real.sin u.phi
                 * Real.sin (π * ((1 - Real.cos c.theta) / 2 * ((1 - Real.cos t.theta) / 2)))
               + Real.cos u.theta
                 * Real.cos (π * ((1 - Real.cos c.theta) / 2 * ((1 - Real.cos t.theta) / 2)))⟩
            ).toQubit :: rest)
      ∧ (c.theta = 0 → t.WellFormed →
          ∃ s', commitGate .CNOT frames ⟨c :: t :: rest, sel, false, hist, last⟩ = some s'
            ∧ s'.qubits = c :: t :: rest)
      ∧ (c.theta = π →
          ∃ s' sx, commitGate .CNOT frames ⟨c :: t :: rest, sel, false, hist, last⟩ = some s'
            ∧ commitGate .X frames' ⟨c :: t :: rest, 1, false, hist, last⟩ = some sx
            ∧ s'.qubits = sx.qubits)
      ∧ (EPS ≤ π * ((1 - Real.cos c.theta) / 2) →
          π * ((1 - Real.cos c.theta) / 2) ≤ π - EPS →
          ∃ s', commitGate .CNOT frames ⟨c :: ⟨0, 0⟩ :: rest, sel, false, hist, last⟩ = some s'
            ∧ s'.qubits = c :: ⟨π * ((1 - Real.cos c.theta) / 2), 3 * π / 2⟩ :: rest)
      ∧ (∃ s', commitGate .CCX frames
            ⟨[⟨π / 2, 0⟩, ⟨π / 2, 0⟩, ⟨0, 0⟩], sel, false, hist, last⟩ = some s'
          ∧ s'.qubits = [⟨π / 2, 0⟩, ⟨π / 2, 0⟩, ⟨π / 4, 3 * π / 2⟩])
      ∧ (∃ s', commitGate .CZ frames
            ⟨[⟨π / 2, 0⟩, ⟨π / 2, 0⟩], sel, false, hist, last⟩ = some s'
          ∧ s'.qubits = [⟨π / 2, 0⟩, ⟨π / 2, π / 2⟩]) := by
  refine ⟨⟨_, commitGate_CNOT c t rest sel hist last frames, rfl⟩,
    ⟨_, commitGate_CZ c t rest sel hist last frames, rfl⟩,
    ⟨_, commitGate_CCX c t u rest sel hist last frames, rfl⟩, ?_, ?_, ?_, ?_, ?_⟩
  · intro hc ht
    refine ⟨_, commitGate_CNOT c t rest sel hist last frames, ?_⟩
    simp only [hc, Real.cos_zero, sub_self, zero_div, mul_zero]
    rw [anglesFromVec_rotateAroundX_zero ht]
  · intro hc
    refine ⟨_, _, commitGate_CNOT c t rest sel hist last frames,
      commitGate_X ⟨c :: t :: rest, 1, false, hist, last⟩ t frames' rfl (by simp), ?_⟩
    simp only [hc, Real.cos_pi, List.set_cons_succ, List.set_cons_zero]
    norm_num
  · intro h0 h1
    refine ⟨_, commitGate_CNOT c ⟨0, 0⟩ rest sel hist last frames, ?_⟩
    simp only []
    rw [xturn_north h0 h1]
  · refine ⟨_, commitGate_CCX ⟨π / 2, 0⟩ ⟨π / 2, 0⟩ ⟨0, 0⟩ [] sel hist last frames, ?_⟩
    have ha : π * ((1 - Real.cos (π / 2)) / 2 * ((1 - Real.cos (π / 2)) / 2)) = π / 4 := by
      rw [Real.cos_pi_div_two]
      ring
    simp only [ha]
    rw [xturn_north EPS_le_quarter_pi.1 EPS_le_quarter_pi.2]
  · refine ⟨_, commitGate_CZ ⟨π / 2, 0⟩ ⟨π / 2, 0⟩ [] sel hist last frames, ?_⟩
    have ha : π * ((1 - Real.cos (π / 2)) / 2) = π / 2 := by
      rw [Real.cos_pi_div_two]
      ring
    have hq := @zshift ⟨π / 2, 0⟩ EPS_le_half_pi.1 EPS_le_half_pi.2 (π / 2)
    have hm : toIcoMod Real.two_pi_pos 0 (0 + π / 2) = π / 2 := by
      rw [zero_add, toIcoMod_eq_self]
      constructor <;> linarith [Real.pi_pos]
    simp only [ha]
    rw [hq, hm]

/-- C7, with the control at `theta = 0` over a target at `{π/2, π/2}`, with the
control at `theta = π`, and with the control at `theta = π/2` over a target at
`|0⟩`: a quarter turn, to `{π/2, 3π/2}`. -/
theorem controlled_gates_witness :
    (∃ s', commitGate .CNOT [] ⟨[⟨0, 0⟩, ⟨π / 2, π / 2⟩], 0, false, [], none⟩ = some s'
        ∧ s'.qubits = [⟨0, 0⟩, ⟨π / 2, π / 2⟩])
      ∧ (∃ s' sx, commitGate .CNOT [] ⟨[⟨π, 0⟩, ⟨π / 2, π / 2⟩], 0, false, [], none⟩ = some s'
          ∧ commitGate .X [] ⟨[⟨π, 0⟩, ⟨π / 2, π / 2⟩], 1, false, [], none⟩ = some sx
          ∧ s'.qubits = sx.qubits)
      ∧ (∃ s', commitGate .CNOT [] ⟨[⟨π / 2, 0⟩, ⟨0, 0⟩], 0, false, [], none⟩ = some s'
          ∧ s'.qubits = [⟨π / 2, 0⟩, ⟨π * ((1 - Real.cos (π / 2)) / 2), 3 * π / 2⟩])
      ∧ π * ((1 - Real.cos (π / 2)) / 2) = π / 2 :=
  have ha : π * ((1 - Real.cos (π / 2)) / 2) = π / 2 := by
    rw [Real.cos_pi_div_two]
    ring
  have hw : Qubit.WellFormed ⟨π / 2, π / 2⟩ :=
    ⟨by positivity, by linarith [Real.pi_pos], by positivity, by linarith [Real.pi_pos],
     fun h => absurd h (not_pole_of_mem EPS_le_half_pi.1 EPS_le_half_pi.2)⟩
  ⟨(controlled_gates ⟨0, 0⟩ ⟨π / 2, π / 2⟩ ⟨0, 0⟩ [] 0 [] none [] []).2.2.2.1 rfl hw,
   (controlled_gates ⟨π, 0⟩ ⟨π / 2, π / 2⟩ ⟨0, 0⟩ [] 0 [] none [] []).2.2.2.2.1 rfl,
   (controlled_gates ⟨π / 2, 0⟩ ⟨0, 0⟩ ⟨0, 0⟩ [] 0 [] none [] []).2.2.2.2.2.1
     (by rw [ha]; exact EPS_le_half_pi.1) (by rw [ha]; exact EPS_le_half_pi.2),
   ha⟩

/-! ## Half turns at the end angle `Math.PI`: lemmas -/

theorem sin_MathPI_pos : 0 < Real.sin MathPI :=
  Real.sin_pos_of_pos_of_lt_pi MathPI_pos MathPI_lt_pi

theorem cos_MathPI_neg : Real.cos MathPI < 0 := by
  apply Real.cos_neg_of_pi_div_two_lt_of_lt
  · have h := MathPI_pole
    have hE : EPS < 1 := by
      unfold EPS
      norm_num
    rw [abs_lt] at h
    linarith [Real.pi_gt_three]
  · linarith [MathPI_lt_pi, Real.pi_pos]

theorem arccos_one_half : Real.arccos (1 / 2) = π / 3 := by
  rw [← Real.cos_pi_div_three]
  exact Real.arccos_cos (by positivity) (by linarith [Real.pi_pos])

/-- The polar angle of a point with `|z| ≤ 1/2` is not within `EPS` of a pole. -/
theorem arccos_not_pole {z : ℝ} (h1 : -(1 / 2) ≤ z) (h2 : z ≤ 1 / 2) :
    ¬ (|Real.arccos z| < EPS ∨ |Real.arccos z - π| < EPS) := by
  have hpi := Real.pi_gt_three
  have hE : EPS < 1 := by
    unfold EPS
    norm_num
  have hlo : π / 3 ≤ Real.arccos z := by
    rw [← arccos_one_half]
    exact Real.strictAntiOn_arccos.antitoneOn ⟨by linarith, by linarith⟩
      ⟨by norm_num, by norm_num⟩ h2
  have hhi : Real.arccos z ≤ π - π / 3 := by
    have h := Real.strictAntiOn_arccos.antitoneOn (show (-(1 / 2) : ℝ) ∈ Set.Icc (-1) 1 from
      ⟨by norm_num, by norm_num⟩) (show z ∈ Set.Icc (-1 : ℝ) 1 from ⟨by linarith, by linarith⟩) h1
    rw [Real.arccos_neg, arccos_one_half] at h
    exact h
  exact not_pole_of_mem (by linarith) (by linarith)

/-- The polar angle that `cartToSph` returns for a point of the unit sphere. -/
theorem cartToSph_theta_of_unit {v : Vec3} (hn : v.x * v.x + v.y * v.y + v.z * v.z = 1) :
    (cartToSph v).theta = Real.arccos v.z := by
  simp [cartToSph, hn, orOne]

/-- On the unit sphere `sphToCart` inverts `cartToSph`. -/
theorem sphToCart_cartToSph {v : Vec3} (hn : v.x * v.x + v.y * v.y + v.z * v.z = 1) :
    sphToCart (cartToSph v).theta (cartToSph v).phi = v := by
  have hz : v.z ^ 2 ≤ 1 := by nlinarith [mul_self_nonneg v.x, mul_self_nonneg v.y]
  have hz1 : -1 ≤ v.z ∧ v.z ≤ 1 := abs_le.mp (by
    rw [← sq_le_one_iff_abs_le_one]
    exact hz)
  have habs : Complex.abs ⟨v.x, v.y⟩ = Real.sqrt (1 - v.z ^ 2) := by
    rw [Complex.abs_apply, Complex.normSq_mk]
    congr 1
    linear_combination hn
  have hsin : Real.sin (cartToSph v).theta = Real.sqrt (1 - v.z ^ 2) := by
    rw [cartToSph_theta_of_unit hn, Real.sin_arccos]
  have hcos : Real.cos (cartToSph v).theta = v.z := by
    rw [cartToSph_theta_of_unit hn, Real.cos_arccos hz1.1 hz1.2]
  have hphi : Real.cos (cartToSph v).phi = Real.cos (atan2 v.y v.x)
      ∧ Real.sin (cartToSph v).phi = Real.sin (atan2 v.y v.x) := by
    simp only [cartToSph]
    split_ifs
    · exact ⟨Real.cos_add_two_pi _, Real.sin_add_two_pi _⟩
    · exact ⟨rfl, rfl⟩
  have hs : Real.sin (atan2 v.y v.x) = v.y / Real.sqrt (1 - v.z ^ 2) := by
    unfold atan2
    rw [Complex.sin_arg, habs]
  by_cases h0 : Real.sqrt (1 - v.z ^ 2) = 0
  · have hxy : v.x * v.x + v.y * v.y = 0 := by
      have h1 : 1 - v.z ^ 2 = 0 := by
        have := Real.sqrt_eq_zero'.mp h0
        nlinarith
      nlinarith
    have hx : v.x = 0 := by nlinarith [mul_self_nonneg v.x, mul_self_nonneg v.y]
    have hy : v.y = 0 := by nlinarith [mul_self_nonneg v.x, mul_self_nonneg v.y]
    ext
    · simp [sphToCart, hsin, h0, hx]
    · simp [sphToCart, hsin, h0, hy]
    · simp [sphToCart, hcos]
  · have hne : (⟨v.x, v.y⟩ : ℂ) ≠ 0 := by
      intro hc
      apply h0
      rw [← habs, hc]
      simp
    have hc : Real.cos (atan2 v.y v.x) = v.x / Real.sqrt (1 - v.z ^ 2) := by
      unfold atan2
      rw [Complex.cos_arg hne, habs]
    ext
    · simp only [sphToCart, hsin, hphi.1, hc]
      field_simp
    · simp only [sphToCart, hsin, hphi.2, hs]
      field_simp
    · simp only [sphToCart, hcos]

/-- A turn about X keeps a point on the unit sphere. -/
theorem rotateAroundX_unit {v : Vec3} (alpha : ℝ)
    (hn : v.x * v.x + v.y * v.y + v.z * v.z = 1) :
    (rotateAroundX v alpha).x * (rotateAroundX v alpha).x
      + (rotateAroundX v alpha).y * (rotateAroundX v alpha).y
      + (rotateAroundX v alpha).z * (rotateAroundX v alpha).z = 1 := by
  simp only [rotateAroundX]
  have h := Real.sin_sq_add_cos_sq alpha
  linear_combination hn + (v.y * v.y + v.z * v.z) * h

/-- For a point of the unit sphere with `|z| ≤ 1/2`, `normalizeAngles` keeps
what `cartToSph` returns. -/
theorem anglesFromVec_of_not_pole {v : Vec3} (hn : v.x * v.x + v.y * v.y + v.z * v.z = 1)
    (h1 : -(1 / 2) ≤ v.z) (h2 : v.z ≤ 1 / 2) :
    (anglesFromVec v).toQubit = cartToSph v := by
  have hp : ¬ (|(cartToSph v).theta| < EPS ∨ |(cartToSph v).theta - π| < EPS) := by
    rw [cartToSph_theta_of_unit hn]
    exact arccos_not_pole h1 h2
  rw [anglesFromVec, normalizeAngles_of_not_pole _ hp]
  rfl

/-- The sine of the double `Math.PI` is positive and below `1.3e-16`. -/
theorem sin_MathPI_lt : Real.sin MathPI < 13 / 10 ^ 17 := by
  have h1 : Real.sin MathPI = Real.sin (π - MathPI) := (Real.sin_pi_sub MathPI).symm
  have h2 : Real.sin (π - MathPI) < π - MathPI :=
    Real.sin_lt (by linarith [MathPI_lt_pi])
  have h3 : π - MathPI < 13 / 10 ^ 17 := by
    have := Real.pi_lt_d20
    unfold MathPI
    norm_num at this ⊢
    linarith
  linarith

/-- A wrapped azimuth is close to `2π` when the point is close to the positive
x axis: for `x > 0` and `y < 0`, `cartToSph` returns `phi` in
`[2π - (π/2) * (-y / x), 2π)`. -/
theorem cartToSph_phi_near_two_pi {v : Vec3} (hx : 0 < v.x) (hy : v.y < 0) :
    2 * π - π / 2 * (-v.y / v.x) ≤ (cartToSph v).phi ∧ (cartToSph v).phi < 2 * π := by
  have hneg : atan2 v.y v.x < 0 := by
    unfold atan2
    rw [Complex.arg_neg_iff]
    exact hy
  have hhalf : |atan2 v.y v.x| ≤ π / 2 := by
    unfold atan2
    rw [Complex.abs_arg_le_pi_div_two_iff]
    exact hx.le
  rw [abs_of_neg hneg] at hhalf
  have hj := Real.mul_le_sin (neg_nonneg.mpr hneg.le) hhalf
  have habs : v.x ≤ Complex.abs ⟨v.x, v.y⟩ := Complex.re_le_abs ⟨v.x, v.y⟩
  have hapos : 0 < Complex.abs ⟨v.x, v.y⟩ := lt_of_lt_of_le hx habs
  have hs : Real.sin (-atan2 v.y v.x) = -v.y / Complex.abs ⟨v.x, v.y⟩ := by
    rw [Real.sin_neg]
    unfold atan2
    rw [Complex.sin_arg]
    ring
  have hle : -v.y / Complex.abs ⟨v.x, v.y⟩ ≤ -v.y / v.x :=
    div_le_div_of_nonneg_left (by linarith) hx habs
  have hpi := Real.pi_pos
  have hb : -atan2 v.y v.x ≤ π / 2 * (-v.y / v.x) := by
    have h1 : 2 / π * -atan2 v.y v.x ≤ -v.y / v.x := by
      rw [hs] at hj
      exact le_trans hj hle
    have h2 : -atan2 v.y v.x = π / 2 * (2 / π * -atan2 v.y v.x) := by
      field_simp
      ring
    rw [h2]
    exact mul_le_mul_of_nonneg_left h1 (by positivity)
  simp only [cartToSph, if_pos hneg]
  constructor <;> linarith

theorem cos_two_pi_div_three : Real.cos (2 * π / 3) = -(1 / 2) := by
  rw [show 2 * π / 3 = π - π / 3 by ring, Real.cos_pi_sub, Real.cos_pi_div_three]

theorem sin_two_pi_div_three : Real.sin (2 * π / 3) = Real.sqrt 3 / 2 := by
  rw [show 2 * π / 3 = π - π / 3 by ring, Real.sin_pi_sub, Real.sin_pi_div_three]

/-! ## Half turns at the end angle `Math.PI`: the stored azimuth -/

/-- The turn of the north pole about the axis `[1, 0, 1]`. -/
theorem rotateAroundAxis_north (alpha : ℝ) :
    rotateAroundAxis (sphToCart 0 0) (1, 0, 1) alpha
      = ⟨(1 - Real.cos alpha) / 2, -(Real.sin alpha / Real.sqrt 2),
          (1 + Real.cos alpha) / 2⟩ := by
  have h2 : Real.sqrt 2 ≠ 0 := by positivity
  have hs : Real.sqrt 2 * Real.sqrt 2 = 2 := Real.mul_self_sqrt (by norm_num)
  have hlen : orOne (hypot 1 0 1) = Real.sqrt 2 := by
    have : hypot 1 0 1 = Real.sqrt 2 := by
      unfold hypot
      norm_num
    rw [this, orOne_of_ne_zero h2]
  ext <;> simp only [rotateAroundAxis, hlen, sphToCart] <;> simp <;> field_simp
  ring

/-- C20, at the failing input: the call that `applyH` makes on the initial
store, `applyAxisRotationOn(selected, [1, 0, 1], Math.PI, ...)` with the end
angle at the value of the double, carried through. The rotated vector of
`|0⟩` has `y = -sin(Math.PI) / √2 < 0`, `cartToSph` wraps its azimuth, and the
store holds `theta = arccos ((1 + cos Math.PI) / 2)` with `phi` within `1e-15`
below `2π`, not `phi = 0`. -/
theorem applyH_zero_wraps (frames : List ℝ) :
    ∃ s' q,
      finish frames (applyAxisRotationOn (Sim.init.withLast "h") Sim.init.selected
          (.arr (1, 0, 1)) MathPI ("h q[" ++ toString Sim.init.selected ++ "]")) = some s'
        ∧ s'.qubits = [q]
        ∧ q.theta = Real.arccos ((1 + Real.cos MathPI) / 2)
        ∧ 2 * π - 1 / 10 ^ 15 < q.phi ∧ q.phi < 2 * π ∧ q.phi ≠ 0 := by
  have hs := sin_MathPI_pos
  have hs' := sin_MathPI_lt
  have hc := cos_MathPI_neg
  have hc1 := Real.neg_one_le_cos MathPI
  have h2 : (0 : ℝ) < Real.sqrt 2 := by positivity
  have hsq : Real.sqrt 2 * Real.sqrt 2 = 2 := Real.mul_self_sqrt (by norm_num)
  have h := finish_applyAxisRotationOn (Sim.init.withLast "h") Sim.init.selected
    (.arr (1, 0, 1)) MathPI ("h q[" ++ toString Sim.init.selected ++ "]") frames ⟨0, 0⟩ rfl rfl
  have hn : ((1 - Real.cos MathPI) / 2) * ((1 - Real.cos MathPI) / 2)
      + (-(Real.sin MathPI / Real.sqrt 2)) * (-(Real.sin MathPI / Real.sqrt 2))
      + ((1 + Real.cos MathPI) / 2) * ((1 + Real.cos MathPI) / 2) = 1 := by
    have h1 := Real.sin_sq_add_cos_sq MathPI
    field_simp
    nlinarith
  have hq : (anglesFromVec (rotateBy (.arr (1, 0, 1)) (sphToCart 0 0) MathPI)).toQubit
      = cartToSph ⟨(1 - Real.cos MathPI) / 2, -(Real.sin MathPI / Real.sqrt 2),
          (1 + Real.cos MathPI) / 2⟩ := by
    simp only [rotateBy, rotateAroundAxis_north]
    exact anglesFromVec_of_not_pole hn (by simp only; linarith) (by simp only; linarith)
  have hy : -(Real.sin MathPI / Real.sqrt 2) < 0 := by
    rw [neg_lt_zero]
    positivity
  have hx : (0 : ℝ) < (1 - Real.cos MathPI) / 2 := by linarith
  have hphi := @cartToSph_phi_near_two_pi ⟨(1 - Real.cos MathPI) / 2,
    -(Real.sin MathPI / Real.sqrt 2), (1 + Real.cos MathPI) / 2⟩ hx hy
  dsimp only at hphi
  have hpi := Real.pi_gt_three
  have hpi4 := Real.pi_le_four
  have hbound : π / 2 * (-(-(Real.sin MathPI / Real.sqrt 2)) / ((1 - Real.cos MathPI) / 2))
      < 1 / 10 ^ 15 := by
    have hs2 : Real.sin MathPI / Real.sqrt 2 ≤ Real.sin MathPI := by
      apply div_le_self hs.le
      nlinarith
    have h1 : -(-(Real.sin MathPI / Real.sqrt 2)) / ((1 - Real.cos MathPI) / 2)
        ≤ 2 * Real.sin MathPI := by
      rw [neg_neg, div_le_iff₀ hx]
      nlinarith
    calc π / 2 * (-(-(Real.sin MathPI / Real.sqrt 2)) / ((1 - Real.cos MathPI) / 2))
        ≤ π / 2 * (2 * Real.sin MathPI) := mul_le_mul_of_nonneg_left h1 (by positivity)
      _ ≤ 4 * Real.sin MathPI := by nlinarith
      _ < 1 / 10 ^ 15 := by
        norm_num at hs' ⊢
        linarith
  refine ⟨_, cartToSph ⟨(1 - Real.cos MathPI) / 2, -(Real.sin MathPI / Real.sqrt 2),
    (1 + Real.cos MathPI) / 2⟩, h, ?_, ?_, ?_, ?_, ?_⟩
  · show [(anglesFromVec (rotateBy (.arr (1, 0, 1)) (sphToCart 0 0) MathPI)).toQubit] = [_]
    rw [hq]
  · exact cartToSph_theta_of_unit hn
  · linarith [hphi.1]
  · exact hphi.2
  · linarith [hphi.1]

/-- C6, at the failing input: the one-qubit store at `{2π/3, 0}`, a state of the
data model that the theta slider at 120 degrees sets, and twice the call that
`applyX` makes, `applyAxisRotationOn(selected, "x", Math.PI, ...)` with the end
angle at the value of the double, each carried through. After the second
commit the rotated vector has `y = sin(Math.PI) * cos(Math.PI) < 0`,
`cartToSph` wraps its azimuth, and the store holds `phi` within `1e-15` below
`2π`, not the original `phi = 0`. -/
theorem applyX_applyX_wraps (frames1 frames2 : List ℝ) :
    setStateFromBloch Sim.init 120 0 = ⟨[⟨2 * π / 3, 0⟩], 0, false, [], none⟩
      ∧ Qubit.WellFormed ⟨2 * π / 3, 0⟩
      ∧ ∃ s1 s2 q,
        finish frames1 (applyAxisRotationOn
            (Sim.withLast ⟨[⟨2 * π / 3, 0⟩], 0, false, [], none⟩ "x") 0 (.str "x") MathPI
            ("x q[" ++ toString 0 ++ "]")) = some s1
          ∧ finish frames2 (applyAxisRotationOn (s1.withLast "x") s1.selected (.str "x") MathPI
            ("x q[" ++ toString s1.selected ++ "]")) = some s2
          ∧ s2.qubits = [q]
          ∧ q.theta = Real.arccos ((Real.sin MathPI ^ 2 - Real.cos MathPI ^ 2) / 2)
          ∧ 2 * π - 1 / 10 ^ 15 < q.phi ∧ q.phi < 2 * π ∧ q.phi ≠ 0 := by
  have hE : EPS ≤ 2 * π / 3 ∧ 2 * π / 3 ≤ π - EPS := by
    have h := Real.pi_gt_three
    unfold EPS
    constructor <;> norm_num <;> linarith
  have hnp := not_pole_of_mem hE.1 hE.2
  refine ⟨?_, ⟨by positivity, by linarith [Real.pi_pos], le_rfl, by positivity,
    fun h => absurd h hnp⟩, ?_⟩
  · have h120 : rad 120 = 2 * π / 3 := by
      unfold rad
      ring
    have h0 : rad 0 = 0 := by
      unfold rad
      ring
    simp [setStateFromBloch, Sim.init, setQubitAngles, h120, h0,
      normalizeAngles_of_not_pole _ hnp]
  have hs := sin_MathPI_pos
  have hs' := sin_MathPI_lt
  have hc := cos_MathPI_neg
  have hc1 := Real.neg_one_le_cos MathPI
  have hsc := Real.sin_sq_add_cos_sq MathPI
  have hpi := Real.pi_gt_three
  have hpi4 := Real.pi_le_four
  have h3 : (1 : ℝ) < Real.sqrt 3 := by
    rw [show (1 : ℝ) = Real.sqrt 1 by simp]
    exact Real.sqrt_lt_sqrt (by norm_num) (by norm_num)
  -- the vector of the state and its two turns
  have hv0 : sphToCart (2 * π / 3) 0 = ⟨Real.sqrt 3 / 2, 0, -(1 / 2)⟩ := by
    ext <;> simp [sphToCart, cos_two_pi_div_three, sin_two_pi_div_three]
  have hv1 : rotateAroundX (sphToCart (2 * π / 3) 0) MathPI
      = ⟨Real.sqrt 3 / 2, Real.sin MathPI / 2, -(Real.cos MathPI / 2)⟩ := by
    rw [hv0]
    ext <;> simp [rotateAroundX] <;> ring
  have hn1 : (Real.sqrt 3 / 2) * (Real.sqrt 3 / 2) + (Real.sin MathPI / 2) * (Real.sin MathPI / 2)
      + (-(Real.cos MathPI / 2)) * (-(Real.cos MathPI / 2)) = 1 := by
    have h := rotateAroundX_unit MathPI (sphToCart_norm_sq (2 * π / 3) 0)
    rw [hv1] at h
    exact h
  have hv2 : rotateAroundX ⟨Real.sqrt 3 / 2, Real.sin MathPI / 2, -(Real.cos MathPI / 2)⟩ MathPI
      = ⟨Real.sqrt 3 / 2, Real.sin MathPI * Real.cos MathPI,
          (Real.sin MathPI ^ 2 - Real.cos MathPI ^ 2) / 2⟩ := by
    ext <;> simp [rotateAroundX] <;> ring
  have hn2 : (Real.sqrt 3 / 2) * (Real.sqrt 3 / 2)
      + (Real.sin MathPI * Real.cos MathPI) * (Real.sin MathPI * Real.cos MathPI)
      + ((Real.sin MathPI ^ 2 - Real.cos MathPI ^ 2) / 2)
        * ((Real.sin MathPI ^ 2 - Real.cos MathPI ^ 2) / 2) = 1 := by
    have h := @rotateAroundX_unit ⟨Real.sqrt 3 / 2, Real.sin MathPI / 2, -(Real.cos MathPI / 2)⟩
      MathPI hn1
    rw [hv2] at h
    exact h
  -- the first commit
  have hq1 : (anglesFromVec (rotateBy (.str "x") (sphToCart (2 * π / 3) 0) MathPI)).toQubit
      = cartToSph ⟨Real.sqrt 3 / 2, Real.sin MathPI / 2, -(Real.cos MathPI / 2)⟩ := by
    simp only [rotateBy, if_true, hv1]
    exact anglesFromVec_of_not_pole hn1 (by simp only; linarith) (by simp only; linarith)
  have h1 := finish_applyAxisRotationOn
    (Sim.withLast ⟨[⟨2 * π / 3, 0⟩], 0, false, [], none⟩ "x") 0 (.str "x") MathPI
    ("x q[" ++ toString 0 ++ "]") frames1 ⟨2 * π / 3, 0⟩ rfl rfl
  -- the second commit
  have hq2 : (anglesFromVec (rotateBy (.str "x")
        (sphToCart (cartToSph ⟨Real.sqrt 3 / 2, Real.sin MathPI / 2,
            -(Real.cos MathPI / 2)⟩).theta
          (cartToSph ⟨Real.sqrt 3 / 2, Real.sin MathPI / 2, -(Real.cos MathPI / 2)⟩).phi)
        MathPI)).toQubit
      = cartToSph ⟨Real.sqrt 3 / 2, Real.sin MathPI * Real.cos MathPI,
          (Real.sin MathPI ^ 2 - Real.cos MathPI ^ 2) / 2⟩ := by
    rw [sphToCart_cartToSph hn1]
    simp only [rotateBy, if_true, hv2]
    exact anglesFromVec_of_not_pole hn2 (by simp only; nlinarith) (by simp only; nlinarith)
  have h2 := finish_applyAxisRotationOn
    (Sim.withLast ⟨[cartToSph ⟨Real.sqrt 3 / 2, Real.sin MathPI / 2, -(Real.cos MathPI / 2)⟩],
      0, false, [] ++ ["x q[" ++ toString 0 ++ "]"], some "x"⟩ "x") 0 (.str "x") MathPI
    ("x q[" ++ toString 0 ++ "]") frames2
    (cartToSph ⟨Real.sqrt 3 / 2, Real.sin MathPI / 2, -(Real.cos MathPI / 2)⟩) rfl rfl
  -- the azimuth after the second commit
  have hx : (0 : ℝ) < Real.sqrt 3 / 2 := by positivity
  have hy : Real.sin MathPI * Real.cos MathPI < 0 := mul_neg_of_pos_of_neg hs hc
  have hphi := @cartToSph_phi_near_two_pi ⟨Real.sqrt 3 / 2, Real.sin MathPI * Real.cos MathPI,
    (Real.sin MathPI ^ 2 - Real.cos MathPI ^ 2) / 2⟩ hx hy
  dsimp only at hphi
  have hbound : π / 2 * (-(Real.sin MathPI * Real.cos MathPI) / (Real.sqrt 3 / 2))
      < 1 / 10 ^ 15 := by
    have hr : -(Real.sin MathPI * Real.cos MathPI) / (Real.sqrt 3 / 2) ≤ 2 * Real.sin MathPI := by
      rw [div_le_iff₀ hx]
      nlinarith
    calc π / 2 * (-(Real.sin MathPI * Real.cos MathPI) / (Real.sqrt 3 / 2))
        ≤ π / 2 * (2 * Real.sin MathPI) := mul_le_mul_of_nonneg_left hr (by positivity)
      _ ≤ 4 * Real.sin MathPI := by nlinarith
      _ < 1 / 10 ^ 15 := by
        norm_num at hs' ⊢
        linarith
  dsimp only [Sim.withLast, List.set] at h1 h2
  rw [hq1] at h1
  rw [hq2] at h2
  exact ⟨_, _, cartToSph ⟨Real.sqrt 3 / 2, Real.sin MathPI * Real.cos MathPI,
    (Real.sin MathPI ^ 2 - Real.cos MathPI ^ 2) / 2⟩, h1, h2, rfl,
    cartToSph_theta_of_unit hn2, by linarith [hphi.1], hphi.2, by linarith [hphi.1]⟩

/-! ## CSWAP: lemmas -/

theorem hypot_sphToCart (theta phi : ℝ) :
    hypot (sphToCart theta phi).x (sphToCart theta phi).y (sphToCart theta phi).z = 1 := by
  unfold hypot
  rw [sphToCart_norm_sq, Real.sqrt_one]

/-- With the factor `0` the blend of `lerpSwap` is its first vector. -/
theorem lerpSwap_zero (theta phi : ℝ) (vb : Vec3) :
    lerpSwap (sphToCart theta phi) vb 0 = sphToCart theta phi := by
  have h := hypot_sphToCart theta phi
  ext <;> simp [lerpSwap, h, orOne]

/-- With the factor `1` the blend of `lerpSwap` is its second vector. -/
theorem lerpSwap_one (va : Vec3) (theta phi : ℝ) :
    lerpSwap va (sphToCart theta phi) 1 = sphToCart theta phi := by
  have h := hypot_sphToCart theta phi
  ext <;> simp [lerpSwap, h, orOne]

/-- A state of the data model survives the trip through its vector. -/
theorem anglesFromVec_wellFormed {q : Qubit} (h : q.WellFormed) :
    anglesFromVec (sphToCart q.theta q.phi) = ⟨q.theta, q.phi⟩ := by
  rw [anglesFromVec_sphToCart h.1 h.2.1 h.2.2.1 h.2.2.2.1, normalizeAngles_wellFormed h]

/-- The handler of CSWAP on an idle store of at least three qubits. -/
theorem applyCSWAP_idle (c a b : Qubit) (rest : List Qubit) (sel : Nat)
    (hist : List String) (last : Option String) :
    applyCSWAP ⟨c :: a :: b :: rest, sel, false, hist, last⟩ = some
      ({ qubits := c
            :: (anglesFromVec (lerpSwap (sphToCart a.theta a.phi) (sphToCart b.theta b.phi)
                  ((1 - Real.cos c.theta) / 2))).toQubit
            :: (anglesFromVec (lerpSwap (sphToCart b.theta b.phi) (sphToCart a.theta a.phi)
                  ((1 - Real.cos c.theta) / 2))).toQubit
            :: rest
         selected := sel
         animating := false
         history := hist ++ ["cswap q[0] ? swap q[1],q[2]"]
         lastAppliedGate := some "cswap" }, none) := by
  have hl : "cswap q[" ++ toString 0 ++ "] ? swap q[" ++ toString 1 ++ "],q["
      ++ toString 2 ++ "]" = "cswap q[0] ? swap q[1],q[2]" := by
    decide
  have hrest : ∀ l : List Qubit, List.mapIdx (fun _ q => q) l = l := by
    intro l
    apply List.ext_getElem?
    intro j
    rw [List.getElem?_mapIdx]
    cases l[j]? <;> simp
  have hlen : ¬ (rest.length + 1 + 1 + 1 < 3) := by omega
  simp [applyCSWAP, probOne, Sim.withLast, hl, List.mapIdx_cons, TP.toQubit, hrest, hlen]

/-! ## CSWAP: the claims -/

/-- C18, as stated, fails on a busy store: with the control at `theta = π` the
handler returns at its guard and the two targets keep their states. -/
theorem applyCSWAP_busy_no_exchange :
    (∃ s', applyCSWAP ⟨[⟨π, 0⟩, ⟨0, 0⟩, ⟨π / 2, 0⟩], 1, true, ["x q[0]"], some "z"⟩
          = some (s', none)
        ∧ s'.qubits = [⟨π, 0⟩, ⟨0, 0⟩, ⟨π / 2, 0⟩])
      ∧ ([⟨π, 0⟩, ⟨0, 0⟩, ⟨π / 2, 0⟩] : List Qubit) ≠ [⟨π, 0⟩, ⟨π / 2, 0⟩, ⟨0, 0⟩] := by
  refine ⟨⟨⟨[⟨π, 0⟩, ⟨0, 0⟩, ⟨π / 2, 0⟩], 1, true, ["x q[0]"], some "z"⟩,
    by simp [applyCSWAP], rfl⟩, ?_⟩
  simp [Real.pi_ne_zero]

/-- C18, amended: the endpoints of CSWAP on an idle store. On an idle store of
three qubits (or more) whose targets `q[1]`, `q[2]` satisfy the data model,
CSWAP with the control at `theta = 0` leaves the collection unchanged, and
with the control at `theta = π` exchanges the states of the two targets
exactly; the control and any further qubit are unchanged, and no animation is
started. -/
theorem applyCSWAP_endpoints (c a b : Qubit) (rest : List Qubit) (sel : Nat)
    (hist : List String) (last : Option String)
    (ha : a.WellFormed) (hb : b.WellFormed) :
    (c.theta = 0 →
        ∃ s', applyCSWAP ⟨c :: a :: b :: rest, sel, false, hist, last⟩ = some (s', none)
          ∧ s'.qubits = c :: a :: b :: rest)
      ∧ (c.theta = π →
        ∃ s', applyCSWAP ⟨c :: a :: b :: rest, sel, false, hist, last⟩ = some (s', none)
          ∧ s'.qubits = c :: b :: a :: rest) := by
  constructor
  · intro hc
    refine ⟨_, applyCSWAP_idle c a b rest sel hist last, ?_⟩
    simp only [hc, Real.cos_zero, sub_self, zero_div, lerpSwap_zero,
      anglesFromVec_wellFormed ha, anglesFromVec_wellFormed hb, TP.toQubit]
  · intro hc
    refine ⟨_, applyCSWAP_idle c a b rest sel hist last, ?_⟩
    have hp : (1 - Real.cos π) / 2 = 1 := by
      rw [Real.cos_pi]
      norm_num
    simp only [hc, hp, lerpSwap_one, anglesFromVec_wellFormed ha,
      anglesFromVec_wellFormed hb, TP.toQubit]

theorem wellFormed_pi : Qubit.WellFormed ⟨π, 0⟩ :=
  ⟨Real.pi_pos.le, le_rfl, le_rfl, by positivity, fun _ => rfl⟩

/-- C18, amended, on the store `|1>, |0>, |1>` for the exchange and
`|0>, |0>, |1>` for the no-op. -/
theorem applyCSWAP_endpoints_witness :
    (∃ s', applyCSWAP ⟨[⟨0, 0⟩, ⟨0, 0⟩, ⟨π, 0⟩], 0, false, [], none⟩ = some (s', none)
        ∧ s'.qubits = [⟨0, 0⟩, ⟨0, 0⟩, ⟨π, 0⟩])
      ∧ (∃ s', applyCSWAP ⟨[⟨π, 0⟩, ⟨0, 0⟩, ⟨π, 0⟩], 0, false, [], none⟩ = some (s', none)
        ∧ s'.qubits = [⟨π, 0⟩, ⟨π, 0⟩, ⟨0, 0⟩]) :=
  ⟨(applyCSWAP_endpoints ⟨0, 0⟩ ⟨0, 0⟩ ⟨π, 0⟩ [] 0 [] none wellFormed_zero wellFormed_pi).1 rfl,
   (applyCSWAP_endpoints ⟨π, 0⟩ ⟨0, 0⟩ ⟨π, 0⟩ [] 0 [] none wellFormed_zero wellFormed_pi).2 rfl⟩

/-- The interpolated vector of two unit vectors vanishes only for the factor
`1/2` between antipodal vectors. -/
theorem blend_eq_zero {va vb : Vec3} {k : ℝ}
    (ha : va.x * va.x + va.y * va.y + va.z * va.z = 1)
    (hb : vb.x * vb.x + vb.y * vb.y + vb.z * vb.z = 1)
    (h : hypot ((1 - k) * va.x + k * vb.x) ((1 - k) * va.y + k * vb.y)
      ((1 - k) * va.z + k * vb.z) = 0) :
    k = 1 / 2 ∧ va.x + vb.x = 0 ∧ va.y + vb.y = 0 ∧ va.z + vb.z = 0 := by
  have hsq := hypot_sq ((1 - k) * va.x + k * vb.x) ((1 - k) * va.y + k * vb.y)
    ((1 - k) * va.z + k * vb.z)
  rw [h] at hsq
  have hx : (1 - k) * va.x + k * vb.x = 0 := by
    nlinarith [mul_self_nonneg ((1 - k) * va.x + k * vb.x),
      mul_self_nonneg ((1 - k) * va.y + k * vb.y), mul_self_nonneg ((1 - k) * va.z + k * vb.z)]
  have hy : (1 - k) * va.y + k * vb.y = 0 := by
    nlinarith [mul_self_nonneg ((1 - k) * va.x + k * vb.x),
      mul_self_nonneg ((1 - k) * va.y + k * vb.y), mul_self_nonneg ((1 - k) * va.z + k * vb.z)]
  have hz : (1 - k) * va.z + k * vb.z = 0 := by
    nlinarith [mul_self_nonneg ((1 - k) * va.x + k * vb.x),
      mul_self_nonneg ((1 - k) * va.y + k * vb.y), mul_self_nonneg ((1 - k) * va.z + k * vb.z)]
  have hk : k = 1 / 2 := by
    linear_combination (-1 / 2) * (((1 - k) * va.x - k * vb.x) * hx
      + ((1 - k) * va.y - k * vb.y) * hy + ((1 - k) * va.z - k * vb.z) * hz
      - (1 - k) ^ 2 * ha + k ^ 2 * hb)
  subst hk
  refine ⟨rfl, ?_, ?_, ?_⟩
  · linear_combination 2 * hx
  · linear_combination 2 * hy
  · linear_combination 2 * hz

/-- A non-zero interpolated vector is renormalised to unit length. -/
theorem lerpSwap_norm_of_ne_zero (va vb : Vec3) (k : ℝ)
    (h : hypot ((1 - k) * va.x + k * vb.x) ((1 - k) * va.y + k * vb.y)
      ((1 - k) * va.z + k * vb.z) ≠ 0) :
    (lerpSwap va vb k).norm = 1 := by
  have hN := axis_unit h
  simp only [Vec3.norm, lerpSwap, hypot] at hN ⊢
  rw [Real.sqrt_eq_one]
  linear_combination hN

/-- C21: CSWAP renormalises to unit length. For every control state `c` and
every pair of target states `a`, `b`, both blended vectors that `applyCSWAP`
computes, `lerpSwap va vb p` and `lerpSwap vb va p` with the targets' vectors
and `p = (1 - cos θ₀) / 2`, have Euclidean norm `1`, unless the control lies
exactly on the equator (`cos θ₀ = 0`, so `p = 1/2`) and the targets are exactly
antipodal (`va + vb = 0`). -/
theorem lerpSwap_norm (c a b : Qubit)
    (h : Real.cos c.theta ≠ 0
      ∨ ¬ ((sphToCart a.theta a.phi).x + (sphToCart b.theta b.phi).x = 0
          ∧ (sphToCart a.theta a.phi).y + (sphToCart b.theta b.phi).y = 0
          ∧ (sphToCart a.theta a.phi).z + (sphToCart b.theta b.phi).z = 0)) :
    (lerpSwap (sphToCart a.theta a.phi) (sphToCart b.theta b.phi)
        ((1 - Real.cos c.theta) / 2)).norm = 1
      ∧ (lerpSwap (sphToCart b.theta b.phi) (sphToCart a.theta a.phi)
        ((1 - Real.cos c.theta) / 2)).norm = 1 := by
  constructor
  · apply lerpSwap_norm_of_ne_zero
    intro h0
    obtain ⟨hk, hx, hy, hz⟩ := blend_eq_zero (sphToCart_norm_sq a.theta a.phi)
      (sphToCart_norm_sq b.theta b.phi) h0
    rcases h with h | h
    · exact h (by linarith)
    · exact h ⟨hx, hy, hz⟩
  · apply lerpSwap_norm_of_ne_zero
    intro h0
    obtain ⟨hk, hx, hy, hz⟩ := blend_eq_zero (sphToCart_norm_sq b.theta b.phi)
      (sphToCart_norm_sq a.theta a.phi) h0
    rcases h with h | h
    · exact h (by linarith)
    · exact h ⟨by linarith, by linarith, by linarith⟩

/-- C21, with the control on the equator (`theta = π/2`, `p = 1/2`) and the
targets `|0⟩` and the +x point, which are not antipodal, and with the control
at `theta = π/3` and the antipodal targets `|0⟩`, `|1⟩`. -/
theorem lerpSwap_norm_witness :
    ((lerpSwap (sphToCart 0 0) (sphToCart (π / 2) 0) ((1 - Real.cos (π / 2)) / 2)).norm = 1
        ∧ (lerpSwap (sphToCart (π / 2) 0) (sphToCart 0 0) ((1 - Real.cos (π / 2)) / 2)).norm = 1)
      ∧ ((lerpSwap (sphToCart 0 0) (sphToCart π 0) ((1 - Real.cos (π / 3)) / 2)).norm = 1
        ∧ (lerpSwap (sphToCart π 0) (sphToCart 0 0) ((1 - Real.cos (π / 3)) / 2)).norm = 1) :=
  ⟨lerpSwap_norm ⟨π / 2, 0⟩ ⟨0, 0⟩ ⟨π / 2, 0⟩ (Or.inr (fun h => by
      have hx := h.1
      simp [sphToCart] at hx)),
   lerpSwap_norm ⟨π / 3, 0⟩ ⟨0, 0⟩ ⟨π, 0⟩ (Or.inl (by
      show Real.cos (π / 3) ≠ 0
      rw [Real.cos_pi_div_three]
      norm_num))⟩

/-! ## Invariants of the store: lemmas -/

theorem mem_setQubitAngles {i : Nat} {t p : ℝ} {qs : List Qubit} {q : Qubit}
    (h : q ∈ setQubitAngles i t p qs) : q ∈ qs ∨ q = ⟨t, p⟩ := by
  rw [setQubitAngles_eq_set] at h
  exact List.mem_or_eq_of_mem_set h

theorem length_setQubitAngles (i : Nat) (t p : ℝ) (qs : List Qubit) :
    (setQubitAngles i t p qs).length = qs.length := by
  simp [setQubitAngles]

/-- A call of `applyAxisRotationOn` writes no qubit and keeps the selection. -/
theorem applyAxisRotationOn_fst (s : Sim) (g : String) (index : Nat) (axis : Axis)
    (angle : ℝ) (label : String) :
    (applyAxisRotationOn (s.withLast g) index axis angle label).1.qubits = s.qubits
      ∧ (applyAxisRotationOn (s.withLast g) index axis angle label).1.selected
          = s.selected := by
  unfold applyAxisRotationOn
  split_ifs <;> exact ⟨rfl, rfl⟩

theorem swapUpdater_eq_some {qs qs' : List Qubit} (h : swapUpdater qs = some qs') :
    ∃ a b rest, qs = a :: b :: rest ∧ qs' = b :: a :: rest := by
  match qs, h with
  | [], h => simp [swapUpdater] at h
  | [_], h => simp [swapUpdater] at h
  | a :: b :: rest, h =>
    simp only [swapUpdater, List.getElem?_cons_zero, List.getElem?_cons_succ,
      Option.some.injEq, List.drop_succ_cons, List.drop_zero] at h
    exact ⟨a, b, rest, rfl, h.symm⟩

theorem iswapUpdater_eq_some {qs qs' : List Qubit} (h : iswapUpdater qs = some qs') :
    ∃ a b rest, qs = a :: b :: rest
      ∧ qs' = (iswapRot b).toQubit :: (iswapRot a).toQubit :: rest := by
  match qs, h with
  | [], h => simp [iswapUpdater] at h
  | [_], h => simp [iswapUpdater] at h
  | a :: b :: rest, h =>
    simp only [iswapUpdater, List.getElem?_cons_zero, List.getElem?_cons_succ,
      Option.some.injEq, List.drop_succ_cons, List.drop_zero] at h
    exact ⟨a, b, rest, rfl, h.symm⟩

/-- What a gate handler can do to the collection at the moment it is invoked:
the selection and the number of qubits stay, and every qubit afterwards is one
that was stored before or the result of `anglesFromVec`. -/
theorem applyGate_qubits {g : Gate} {s : Sim} {r : Sim × Option Animation}
    (h : applyGate g s = some r) :
    r.1.selected = s.selected ∧ r.1.qubits.length = s.qubits.length
      ∧ ∀ q ∈ r.1.qubits, q ∈ s.qubits ∨ ∃ v, q = (anglesFromVec v).toQubit := by
  have key : ∀ r' : Sim × Option Animation, r'.1.qubits = s.qubits →
      r'.1.selected = s.selected → some r' = some r →
      r.1.selected = s.selected ∧ r.1.qubits.length = s.qubits.length
        ∧ ∀ q ∈ r.1.qubits, q ∈ s.qubits ∨ ∃ v, q = (anglesFromVec v).toQubit := by
    intro r' hq hsel he
    cases he
    exact ⟨hsel, by rw [hq], fun q hmem => Or.inl (hq ▸ hmem)⟩
  cases g
  case CNOT =>
    simp only [applyGate, applyCNOT] at h
    split_ifs at h
    · exact key _ rfl rfl h
    · cases hp : probOne s.qubits 0 with
      | none => simp [hp] at h
      | some p =>
        simp only [hp, Option.map_some'] at h
        exact key _ (applyAxisRotationOn_fst s _ _ _ _ _).1
          (applyAxisRotationOn_fst s _ _ _ _ _).2 h
  case CZ =>
    simp only [applyGate, applyCZ] at h
    split_ifs at h
    · exact key _ rfl rfl h
    · cases hp : probOne s.qubits 0 with
      | none => simp [hp] at h
      | some p =>
        simp only [hp, Option.map_some'] at h
        exact key _ (applyAxisRotationOn_fst s _ _ _ _ _).1
          (applyAxisRotationOn_fst s _ _ _ _ _).2 h
  case CCX =>
    simp only [applyGate, applyCCX] at h
    split_ifs at h
    · exact key _ rfl rfl h
    · cases hp : probOne s.qubits 0 with
      | none => simp [hp] at h
      | some p =>
        cases hp2 : probOne s.qubits 1 with
        | none => simp [hp, hp2] at h
        | some p2 =>
          simp only [hp, hp2, Option.some_bind, Option.map_some'] at h
          exact key _ (applyAxisRotationOn_fst s _ _ _ _ _).1
            (applyAxisRotationOn_fst s _ _ _ _ _).2 h
  case SWAP =>
    simp only [applyGate, applySWAP] at h
    split_ifs at h
    · exact key _ rfl rfl h
    · cases hu : swapUpdater s.qubits with
      | none => simp [hu] at h
      | some qs =>
        simp only [hu, Option.map_some', Option.some.injEq] at h
        subst h
        obtain ⟨a, b, rest, hqs, hqs'⟩ := swapUpdater_eq_some hu
        refine ⟨rfl, ?_, ?_⟩
        · simp [hqs, hqs']
        · intro q hq
          left
          simp only [hqs'] at hq
          rw [hqs]
          simp only [List.mem_cons] at hq ⊢
          tauto
  case ISWAP =>
    simp only [applyGate, applyISWAP] at h
    split_ifs at h
    · exact key _ rfl rfl h
    · cases hu : iswapUpdater s.qubits with
      | none => simp [hu] at h
      | some qs =>
        simp only [hu, Option.map_some', Option.some.injEq] at h
        subst h
        obtain ⟨a, b, rest, hqs, hqs'⟩ := iswapUpdater_eq_some hu
        refine ⟨rfl, ?_, ?_⟩
        · simp [hqs, hqs']
        · intro q hq
          simp only [hqs'] at hq
          rw [hqs]
          simp only [List.mem_cons] at hq ⊢
          rcases hq with hq | hq | hq
          · exact Or.inr ⟨_, hq⟩
          · exact Or.inr ⟨_, hq⟩
          · exact Or.inl (Or.inr (Or.inr hq))
  case CSWAP =>
    simp only [applyGate, applyCSWAP] at h
    split_ifs at h
    · exact key _ rfl rfl h
    · cases hp : probOne s.qubits 0 with
      | none => simp [hp] at h
      | some p =>
        cases ha : s.qubits[1]? with
        | none => simp [hp, ha] at h
        | some qa =>
          cases hb : s.qubits[2]? with
          | none => simp [hp, ha, hb] at h
          | some qb =>
            simp only [hp, ha, hb, Option.some_bind, Option.map_some',
              Option.some.injEq] at h
            subst h
            refine ⟨rfl, by simp [Sim.withLast], ?_⟩
            intro q hq
            simp only [Sim.withLast] at hq
            obtain ⟨i, hi, hqi⟩ := List.getElem_of_mem hq
            rw [List.getElem_mapIdx] at hqi
            split_ifs at hqi
            · exact Or.inr ⟨_, hqi.symm⟩
            · exact Or.inr ⟨_, hqi.symm⟩
            · exact Or.inl (hqi ▸ List.getElem_mem _)
  all_goals
    exact key _ (applyAxisRotationOn_fst s _ _ _ _ _).1
      (applyAxisRotationOn_fst s _ _ _ _ _).2 h

theorem filter_enumFrom_of_lt (l : List Qubit) (k m : Nat) (h : m < k) :
    ((l.enumFrom k).filter fun iq => iq.1 != m).map Prod.snd = l := by
  induction l generalizing k with
  | nil => rfl
  | cons a l ih =>
    have hk : (k != m) = true := by
      simp only [bne_iff_ne, ne_eq]
      omega
    simp only [List.enumFrom_cons, List.filter_cons, hk, if_true, List.map_cons]
    rw [ih (k + 1) (by omega)]

theorem filter_enumFrom_eq_eraseIdx (l : List Qubit) (k i : Nat) :
    ((l.enumFrom k).filter fun iq => iq.1 != k + i).map Prod.snd = l.eraseIdx i := by
  induction l generalizing k i with
  | nil => rfl
  | cons a l ih =>
    cases i with
    | zero =>
      have hk : (k != k + 0) = false := by simp
      simp only [List.enumFrom_cons, List.filter_cons, hk, List.eraseIdx_cons_zero]
      exact filter_enumFrom_of_lt l (k + 1) (k + 0) (by omega)
    | succ j =>
      have hk : (k != k + (j + 1)) = true := by
        simp only [bne_iff_ne, ne_eq]
        omega
      simp only [List.enumFrom_cons, List.filter_cons, hk, if_true, List.map_cons,
        List.eraseIdx_cons_succ]
      have h := ih (k + 1) j
      rw [show k + 1 + j = k + (j + 1) by omega] at h
      rw [h]

/-- The filter of the remove handler deletes the entry at the selected index
and keeps the others in order. -/
theorem filter_enum_eq_eraseIdx (l : List Qubit) (i : Nat) :
    ((l.enum.filter fun iq => iq.1 != i).map Prod.snd) = l.eraseIdx i := by
  have h := filter_enumFrom_eq_eraseIdx l 0 i
  simpa [List.enum] using h

/-- The remove handler on an idle store of more than one qubit with a valid
selection. -/
theorem removeSelected_idle {s : Sim} (hn : 1 < s.qubits.length)
    (hb : s.animating = false) (hsel : s.selected < s.qubits.length) :
    removeSelected s = { s with qubits := s.qubits.eraseIdx s.selected
                                selected := min s.selected (s.qubits.length - 2) } := by
  have hlen : (s.qubits.eraseIdx s.selected).length = s.qubits.length - 1 := by
    rw [List.length_eraseIdx, if_pos hsel]
  have hne : (s.qubits.length - 1 != 0) = true := by
    simp only [bne_iff_ne, ne_eq]
    omega
  have hcond : (decide (s.qubits.length > 1) && !s.animating) = true := by
    simp [hn, hb]
  simp only [removeSelected, hcond, if_true, filter_enum_eq_eraseIdx, hne, hlen]
  congr 1
  simp only [Nat.zero_max]
  omega

/-- The remove handler on a busy store, or on a store of one qubit, does
nothing. -/
theorem removeSelected_blocked {s : Sim} (h : s.qubits.length ≤ 1 ∨ s.animating = true) :
    removeSelected s = s := by
  have hcond : (decide (s.qubits.length > 1) && !s.animating) = false := by
    rcases h with h | h
    · simp [Nat.not_lt.mpr h]
    · simp [h]
  simp [removeSelected, hcond]

/-- A property of single states that holds of the default state, of every
result of `anglesFromVec` and of what `setStateFromBloch` writes within the
slider ranges is kept by every event. -/
theorem step_preserves (P : Qubit → Prop) (hdef : P ⟨0, 0⟩)
    (hvec : ∀ v, P (anglesFromVec v).toQubit)
    (hbloch : ∀ t p : ℝ, 0 ≤ t → t ≤ 180 → 0 ≤ p → p ≤ 360 →
      P (normalizeAngles (rad t) (rad p)).toQubit)
    {s s' : Sim} (h : Step s s') (hs : ∀ q ∈ s.qubits, P q) :
    ∀ q ∈ s'.qubits, P q := by
  cases h with
  | gate g _ r hg =>
    intro q hq
    rcases (applyGate_qubits hg).2.2 q hq with h | ⟨v, h⟩
    · exact hs q h
    · exact h ▸ hvec v
  | frame a alpha _ _ hf =>
    intro q hq
    unfold onUpdate at hf
    cases hv : vecOf a.qubits a.index with
    | none => simp [hv] at hf
    | some v0 =>
      simp only [hv, Option.map_some', Option.some.injEq] at hf
      subst hf
      rcases mem_setQubitAngles hq with h | h
      · exact hs q h
      · exact h ▸ hvec (rotateBy a.axis v0 alpha)
  | complete a _ => exact hs
  | setBloch _ t p h0 h1 h2 h3 =>
    intro q hq
    rcases mem_setQubitAngles hq with h | h
    · exact hs q h
    · exact h ▸ hbloch t p h0 h1 h2 h3
  | add _ =>
    intro q hq
    unfold addQubit at hq
    split_ifs at hq
    · rcases List.mem_append.mp hq with h | h
      · exact hs q h
      · rw [List.mem_singleton.mp h]
        exact hdef
    · exact hs q hq
  | remove _ =>
    intro q hq
    unfold removeSelected at hq
    split_ifs at hq
    · simp only [filter_enum_eq_eraseIdx] at hq
      split_ifs at hq
      · exact hs q (List.mem_of_mem_eraseIdx hq)
      · rw [List.mem_singleton.mp hq]
        exact hdef
    · exact hs q hq
  | select _ i _ => exact hs
  | reset _ =>
    intro q hq
    rw [List.mem_singleton.mp hq]
    exact hdef

/-- A property of single states as in `step_preserves` holds of every qubit of
every reachable store. -/
theorem reachable_all (P : Qubit → Prop) (hdef : P ⟨0, 0⟩)
    (hvec : ∀ v, P (anglesFromVec v).toQubit)
    (hbloch : ∀ t p : ℝ, 0 ≤ t → t ≤ 180 → 0 ≤ p → p ≤ 360 →
      P (normalizeAngles (rad t) (rad p)).toQubit)
    {s : Sim} (h : Reachable s) : ∀ q ∈ s.qubits, P q := by
  induction h with
  | init =>
    intro q hq
    rw [List.mem_singleton.mp hq]
    exact hdef
  | step s s' _ hstep ih => exact step_preserves P hdef hvec hbloch hstep ih

/-- What `normalizeAngles` returns obeys the pole rule. -/
theorem normalizeAngles_poleNormal (t p : ℝ) : (normalizeAngles t p).toQubit.PoleNormal := by
  unfold Qubit.PoleNormal
  by_cases h : |t| < EPS ∨ |t - π| < EPS
  · intro _
    rw [normalizeAngles_of_pole p h]
    rfl
  · intro hc
    rw [normalizeAngles_of_not_pole p h] at hc
    exact absurd hc h

/-- The angle ranges of what `cartToSph` returns, for every vector. -/
theorem cartToSph_range (v : Vec3) :
    0 ≤ (cartToSph v).theta ∧ (cartToSph v).theta ≤ π
      ∧ 0 ≤ (cartToSph v).phi ∧ (cartToSph v).phi < 2 * π := by
  have h1 := Complex.neg_pi_lt_arg ⟨v.x, v.y⟩
  have h2 := Complex.arg_le_pi ⟨v.x, v.y⟩
  have hpi := Real.pi_pos
  refine ⟨Real.arccos_nonneg _, Real.arccos_le_pi _, ?_, ?_⟩
  · simp only [cartToSph, atan2]
    split_ifs with h
    · linarith
    · exact not_lt.mp h
  · simp only [cartToSph, atan2]
    split_ifs with h
    · linarith
    · linarith

/-- The angle ranges of what `normalizeAngles` returns. -/
theorem normalizeAngles_range {t p : ℝ} (hp0 : 0 ≤ p) :
    (normalizeAngles t p).t = t ∧ 0 ≤ (normalizeAngles t p).p
      ∧ (normalizeAngles t p).p ≤ p := by
  unfold normalizeAngles
  split_ifs
  · exact ⟨rfl, le_rfl, hp0⟩
  · exact ⟨rfl, hp0, le_rfl⟩

theorem not_pole_half_pi : ¬ (|π / 2| < EPS ∨ |π / 2 - π| < EPS) := by
  have hpi := Real.pi_gt_three
  have hE : EPS < 1 := by
    unfold EPS
    norm_num
  rintro (h | h)
  · rw [abs_of_nonneg (by linarith)] at h
    linarith
  · rw [abs_sub_comm, abs_of_nonneg (by linarith)] at h
    linarith

/-- The collection bounds are kept by every event. -/
theorem step_bounds {s s' : Sim} (h : Step s s')
    (hs : 1 ≤ s.qubits.length ∧ s.qubits.length ≤ 3 ∧ s.selected < s.qubits.length) :
    1 ≤ s'.qubits.length ∧ s'.qubits.length ≤ 3 ∧ s'.selected < s'.qubits.length := by
  obtain ⟨h1, h3, hsel⟩ := hs
  cases h with
  | gate g _ r hg =>
    obtain ⟨hs', hl', _⟩ := applyGate_qubits hg
    rw [hs', hl']
    exact ⟨h1, h3, hsel⟩
  | frame a alpha _ _ hf =>
    unfold onUpdate at hf
    cases hv : vecOf a.qubits a.index with
    | none => simp [hv] at hf
    | some v0 =>
      simp only [hv, Option.map_some', Option.some.injEq] at hf
      subst hf
      simp only [length_setQubitAngles]
      exact ⟨h1, h3, hsel⟩
  | complete a _ => exact ⟨h1, h3, hsel⟩
  | setBloch _ t p _ _ _ _ =>
    simp only [setStateFromBloch, length_setQubitAngles]
    exact ⟨h1, h3, hsel⟩
  | add _ =>
    unfold addQubit
    split_ifs with hc
    · simp only [Bool.and_eq_true, decide_eq_true_eq] at hc
      simp only [List.length_append, List.length_singleton]
      omega
    · exact ⟨h1, h3, hsel⟩
  | remove _ =>
    by_cases hc : 1 < s.qubits.length ∧ s.animating = false
    · rw [removeSelected_idle hc.1 hc.2 hsel]
      simp only [List.length_eraseIdx, if_pos hsel]
      omega
    · rw [removeSelected_blocked (by
        by_cases hn : 1 < s.qubits.length
        · right
          cases hb : s.animating
          · exact absurd ⟨hn, hb⟩ hc
          · rfl
        · left
          omega)]
      exact ⟨h1, h3, hsel⟩
  | select _ i hi => exact ⟨h1, h3, hi⟩
  | reset _ => simp [reset]

/-! ## Invariants of the store: the claims -/

/-- C15: pole normalization is an invariant of the qubit store. In every
reachable store (after any sequence of gate invocations, animation frames and
completions, SWAP, iSWAP, CSWAP, slider settings, add, remove, select and
reset) every stored qubit with `|theta| < EPS` or `|theta - π| < EPS` has
`phi = 0`. -/
theorem pole_normalization_invariant (s : Sim) (h : Reachable s) :
    ∀ q ∈ s.qubits, (|q.theta| < EPS ∨ |q.theta - π| < EPS) → q.phi = 0 :=
  reachable_all Qubit.PoleNormal (fun _ => rfl)
    (fun _ => normalizeAngles_poleNormal _ _)
    (fun _ _ _ _ _ _ => normalizeAngles_poleNormal _ _) h

/-- C15, on the store after the theta slider is moved to `0` with phi at `90`
degrees. -/
theorem pole_normalization_invariant_witness :
    Reachable (setStateFromBloch Sim.init 0 90)
      ∧ (⟨0, 0⟩ : Qubit) ∈ (setStateFromBloch Sim.init 0 90).qubits
      ∧ (|(⟨0, 0⟩ : Qubit).theta| < EPS ∨ |(⟨0, 0⟩ : Qubit).theta - π| < EPS)
      ∧ (⟨0, 0⟩ : Qubit).phi = 0 :=
  have hr : Reachable (setStateFromBloch Sim.init 0 90) :=
    Reachable.step _ _ Reachable.init
      (Step.setBloch Sim.init 0 90 (by norm_num) (by norm_num) (by norm_num) (by norm_num))
  have hm : (⟨0, 0⟩ : Qubit) ∈ (setStateFromBloch Sim.init 0 90).qubits := by
    have h0 : rad 0 = 0 := by
      unfold rad
      ring
    simp [setStateFromBloch, Sim.init, setQubitAngles, h0,
      normalizeAngles_of_pole _ (Or.inl (by simpa using EPS_pos) : |(0 : ℝ)| < EPS ∨ _)]
  have hp : |(⟨0, 0⟩ : Qubit).theta| < EPS ∨ |(⟨0, 0⟩ : Qubit).theta - π| < EPS :=
    Or.inl (by simpa using EPS_pos)
  ⟨hr, hm, hp, pole_normalization_invariant _ hr ⟨0, 0⟩ hm hp⟩

/-- The angle ranges of what `anglesFromVec` returns. -/
theorem anglesFromVec_range (v : Vec3) :
    0 ≤ (anglesFromVec v).t ∧ (anglesFromVec v).t ≤ π
      ∧ 0 ≤ (anglesFromVec v).p ∧ (anglesFromVec v).p < 2 * π := by
  obtain ⟨h0, h1, h2, h3⟩ := cartToSph_range v
  obtain ⟨ht, hp0, hp1⟩ := normalizeAngles_range (t := (cartToSph v).theta) h2
  unfold anglesFromVec
  simp only
  rw [ht]
  exact ⟨h0, h1, hp0, lt_of_le_of_lt hp1 h3⟩

/-- The angle ranges of what `setStateFromBloch` writes within the slider
ranges: `phi` reaches `2π` only with the phi slider at `360` degrees. -/
theorem setStateFromBloch_range {t p : ℝ} (h0 : 0 ≤ t) (h1 : t ≤ 180) (h2 : 0 ≤ p)
    (h3 : p ≤ 360) :
    0 ≤ (normalizeAngles (rad t) (rad p)).t ∧ (normalizeAngles (rad t) (rad p)).t ≤ π
      ∧ 0 ≤ (normalizeAngles (rad t) (rad p)).p
      ∧ (normalizeAngles (rad t) (rad p)).p ≤ 2 * π
      ∧ (p < 360 → (normalizeAngles (rad t) (rad p)).p < 2 * π) := by
  have hpi := Real.pi_pos
  have ht0 : 0 ≤ rad t := by
    unfold rad
    positivity
  have ht1 : rad t ≤ π := by
    unfold rad
    rw [div_le_iff₀ (by norm_num)]
    nlinarith
  have hp0 : 0 ≤ rad p := by
    unfold rad
    positivity
  have hp1 : rad p ≤ 2 * π := by
    unfold rad
    rw [div_le_iff₀ (by norm_num)]
    nlinarith
  obtain ⟨ht, hn0, hn1⟩ := normalizeAngles_range (t := rad t) hp0
  rw [ht]
  refine ⟨ht0, ht1, hn0, le_trans hn1 hp1, ?_⟩
  intro hlt
  have : rad p < 2 * π := by
    unfold rad
    rw [div_lt_iff₀ (by norm_num)]
    nlinarith
  exact lt_of_le_of_lt hn1 this

/-- C16, as stated, fails: from the initial store, the theta slider at `90`
degrees and then the phi slider at its offered maximum of `360` degrees store
`phi = 2π`, outside the half-open interval `[0, 2π)`. -/
theorem setStateFromBloch_phi_360 :
    (setStateFromBloch (setStateFromBloch Sim.init 90 0) 90 360).qubits = [⟨π / 2, 2 * π⟩]
      ∧ ¬ (2 * π < 2 * π) := by
  have h90 : rad 90 = π / 2 := by
    unfold rad
    ring
  have h360 : rad 360 = 2 * π := by
    unfold rad
    ring
  have h0 : rad 0 = 0 := by
    unfold rad
    ring
  refine ⟨?_, lt_irrefl _⟩
  simp [setStateFromBloch, Sim.init, setQubitAngles, h90, h360, h0,
    normalizeAngles_of_not_pole _ not_pole_half_pi]

/-- C16, amended: the angle ranges of the store. For every vector (the zero
vector included) `cartToSph` returns `theta` in `[0, π]` and `phi` in
`[0, 2π)`; `setStateFromBloch` with theta from `0` to `180` degrees and phi
from `0` to `360` degrees writes `theta` in `[0, π]` and `phi` in the closed
interval `[0, 2π]`, below `2π` when phi is below `360` degrees; and in every
reachable store every qubit has `theta` in `[0, π]` and `phi` in `[0, 2π]`. -/
theorem angle_ranges :
    (∀ v : Vec3, 0 ≤ (cartToSph v).theta ∧ (cartToSph v).theta ≤ π
        ∧ 0 ≤ (cartToSph v).phi ∧ (cartToSph v).phi < 2 * π)
      ∧ (∀ (s : Sim) (tDeg pDeg : ℝ), 0 ≤ tDeg → tDeg ≤ 180 → 0 ≤ pDeg → pDeg ≤ 360 →
          ∀ q ∈ (setStateFromBloch s tDeg pDeg).qubits,
            q ∈ s.qubits ∨ (0 ≤ q.theta ∧ q.theta ≤ π ∧ 0 ≤ q.phi ∧ q.phi ≤ 2 * π
              ∧ (pDeg < 360 → q.phi < 2 * π)))
      ∧ (∀ s : Sim, Reachable s →
          ∀ q ∈ s.qubits, 0 ≤ q.theta ∧ q.theta ≤ π ∧ 0 ≤ q.phi ∧ q.phi ≤ 2 * π) := by
  refine ⟨cartToSph_range, ?_, ?_⟩
  · intro s t p h0 h1 h2 h3 q hq
    rcases mem_setQubitAngles hq with h | h
    · exact Or.inl h
    · right
      rw [h]
      exact setStateFromBloch_range h0 h1 h2 h3
  · intro s hs
    refine reachable_all Qubit.InRange ⟨le_rfl, Real.pi_pos.le, le_rfl, by positivity⟩
      ?_ ?_ hs
    · intro v
      obtain ⟨a, b, c, d⟩ := anglesFromVec_range v
      exact ⟨a, b, c, d.le⟩
    · intro t p h0 h1 h2 h3
      obtain ⟨a, b, c, d, _⟩ := setStateFromBloch_range h0 h1 h2 h3
      exact ⟨a, b, c, d⟩

/-- C16, amended, on the store after the theta slider is moved to `90`
degrees. -/
theorem angle_ranges_witness :
    Reachable (setStateFromBloch Sim.init 90 0)
      ∧ (⟨π / 2, 0⟩ : Qubit) ∈ (setStateFromBloch Sim.init 90 0).qubits
      ∧ (0 ≤ (⟨π / 2, 0⟩ : Qubit).theta ∧ (⟨π / 2, 0⟩ : Qubit).theta ≤ π
          ∧ 0 ≤ (⟨π / 2, 0⟩ : Qubit).phi ∧ (⟨π / 2, 0⟩ : Qubit).phi ≤ 2 * π) :=
  have hr : Reachable (setStateFromBloch Sim.init 90 0) :=
    Reachable.step _ _ Reachable.init
      (Step.setBloch Sim.init 90 0 (by norm_num) (by norm_num) (by norm_num) (by norm_num))
  have hm : (⟨π / 2, 0⟩ : Qubit) ∈ (setStateFromBloch Sim.init 90 0).qubits := by
    have h90 : rad 90 = π / 2 := by
      unfold rad
      ring
    have h0 : rad 0 = 0 := by
      unfold rad
      ring
    simp [setStateFromBloch, Sim.init, setQubitAngles, h90, h0,
      normalizeAngles_of_not_pole _ not_pole_half_pi]
  ⟨hr, hm, angle_ranges.2.2 _ hr ⟨π / 2, 0⟩ hm⟩

/-- C17, as stated, fails on a busy store: after Add qubit and X (whose
animation is in flight) the store holds two qubits, and the remove handler
returns at its guard without deleting the selected one. -/
theorem removeSelected_busy_noop :
    Reachable ⟨[⟨0, 0⟩, ⟨0, 0⟩], 0, true, [], some "x"⟩
      ∧ removeSelected ⟨[⟨0, 0⟩, ⟨0, 0⟩], 0, true, [], some "x"⟩
          = ⟨[⟨0, 0⟩, ⟨0, 0⟩], 0, true, [], some "x"⟩
      ∧ (removeSelected ⟨[⟨0, 0⟩, ⟨0, 0⟩], 0, true, [], some "x"⟩).qubits
          ≠ List.eraseIdx [⟨0, 0⟩, ⟨0, 0⟩] 0 := by
  refine ⟨?_, ?_, ?_⟩
  · have h1 : Reachable (addQubit Sim.init) := Reachable.step _ _ Reachable.init (Step.add _)
    have h2 := Reachable.step _ _ h1
      (Step.gate .X (addQubit Sim.init) (applyX (addQubit Sim.init)) rfl)
    exact h2
  · exact removeSelected_blocked (Or.inr rfl)
  · rw [removeSelected_blocked (Or.inr rfl)]
    simp

/-- C17, amended: the collection bounds. Every reachable store holds between
1 and 3 qubits and its selected index is valid; Add qubit is a no-op at 3
qubits; the remove handler on an idle store of `n > 1` qubits with a valid
selection deletes exactly the selected qubit, keeps the others in order and
sets the selection to `min(selected, n - 2)`; and while an animation is in
flight the remove handler is a no-op. -/
theorem collection_bounds :
    (∀ s : Sim, Reachable s →
        1 ≤ s.qubits.length ∧ s.qubits.length ≤ 3 ∧ s.selected < s.qubits.length)
      ∧ (∀ s : Sim, 3 ≤ s.qubits.length → addQubit s = s)
      ∧ (∀ s : Sim, 1 < s.qubits.length → s.animating = false →
          s.selected < s.qubits.length →
          (removeSelected s).qubits = s.qubits.eraseIdx s.selected
            ∧ (removeSelected s).selected = min s.selected (s.qubits.length - 2))
      ∧ (∀ s : Sim, s.animating = true → removeSelected s = s) := by
  refine ⟨?_, ?_, ?_, ?_⟩
  · intro s hs
    induction hs with
    | init => simp [Sim.init]
    | step s s' _ hstep ih => exact step_bounds hstep ih
  · intro s h3
    have : ¬ (s.qubits.length < 3) := by omega
    simp [addQubit, this]
  · intro s hn hb hsel
    rw [removeSelected_idle hn hb hsel]
    exact ⟨rfl, rfl⟩
  · intro s hb
    exact removeSelected_blocked (Or.inr hb)

/-- C17, amended, on stores of the three distinct qubits `{0, 0}`, `{π/2, 0}`,
`{π, 0}`: the store after Add qubit satisfies the bounds; a fourth qubit is
not added; removing the selected `q[2]` leaves `q[0]`, `q[1]` and moves the
selection to `1 = min(2, 3 - 2)`; removing the selected `q[0]` leaves `q[1]`,
`q[2]` and keeps the selection `0`; and on the busy store nothing is
removed. -/
theorem collection_bounds_witness :
    (1 ≤ (addQubit Sim.init).qubits.length ∧ (addQubit Sim.init).qubits.length ≤ 3
        ∧ (addQubit Sim.init).selected < (addQubit Sim.init).qubits.length)
      ∧ addQubit ⟨[⟨0, 0⟩, ⟨π / 2, 0⟩, ⟨π, 0⟩], 2, false, [], none⟩
          = ⟨[⟨0, 0⟩, ⟨π / 2, 0⟩, ⟨π, 0⟩], 2, false, [], none⟩
      ∧ ((removeSelected ⟨[⟨0, 0⟩, ⟨π / 2, 0⟩, ⟨π, 0⟩], 2, false, [], none⟩).qubits
            = [⟨0, 0⟩, ⟨π / 2, 0⟩]
          ∧ (removeSelected ⟨[⟨0, 0⟩, ⟨π / 2, 0⟩, ⟨π, 0⟩], 2, false, [], none⟩).selected = 1)
      ∧ ((removeSelected ⟨[⟨0, 0⟩, ⟨π / 2, 0⟩, ⟨π, 0⟩], 0, false, [], none⟩).qubits
            = [⟨π / 2, 0⟩, ⟨π, 0⟩]
          ∧ (removeSelected ⟨[⟨0, 0⟩, ⟨π / 2, 0⟩, ⟨π, 0⟩], 0, false, [], none⟩).selected = 0)
      ∧ removeSelected ⟨[⟨0, 0⟩, ⟨π / 2, 0⟩, ⟨π, 0⟩], 2, true, [], some "x"⟩
          = ⟨[⟨0, 0⟩, ⟨π / 2, 0⟩, ⟨π, 0⟩], 2, true, [], some "x"⟩ :=
  ⟨collection_bounds.1 _ (Reachable.step _ _ Reachable.init (Step.add _)),
   collection_bounds.2.1 ⟨[⟨0, 0⟩, ⟨π / 2, 0⟩, ⟨π, 0⟩], 2, false, [], none⟩ (by decide),
   collection_bounds.2.2.1 ⟨[⟨0, 0⟩, ⟨π / 2, 0⟩, ⟨π, 0⟩], 2, false, [], none⟩
     (by decide) rfl (by decide),
   collection_bounds.2.2.1 ⟨[⟨0, 0⟩, ⟨π / 2, 0⟩, ⟨π, 0⟩], 0, false, [], none⟩
     (by decide) rfl (by decide),
   collection_bounds.2.2.2 ⟨[⟨0, 0⟩, ⟨π / 2, 0⟩, ⟨π, 0⟩], 2, true, [], some "x"⟩ rfl⟩

/-! ## History serializer: decimal digits -/

theorem digitChar_isDigit {m : Nat} (h : m < 10) :
    (Nat.digitChar m).isDigit = true ∧ (Nat.digitChar m).toNat - 48 = m := by
  interval_cases m <;> exact ⟨by decide, by decide⟩

/-- The digits that `Nat.toDigitsCore` puts in front of its accumulator: a
non-empty run of decimal digits that `parseInt` reads back. -/
theorem toDigitsCore_spec (fuel n : Nat) (ds : List Char) (h : n < fuel) :
    ∃ pre : List Char, Nat.toDigitsCore 10 fuel n ds = pre ++ ds ∧ pre ≠ []
      ∧ (∀ c ∈ pre, c.isDigit = true)
      ∧ ∀ acc : Nat, pre.foldl (fun n c => 10 * n + (c.toNat - 48)) acc
          = acc * 10 ^ pre.length + n := by
  induction fuel generalizing n ds with
  | zero => omega
  | succ fuel ih =>
    have hd := digitChar_isDigit (Nat.mod_lt n (by norm_num : 10 > 0))
    by_cases hn : n / 10 = 0
    · refine ⟨[Nat.digitChar (n % 10)], ?_, by simp, ?_, ?_⟩
      · simp [Nat.toDigitsCore, hn]
      · intro c hc
        rw [List.mem_singleton.mp hc]
        exact hd.1
      · intro acc
        simp only [List.foldl_cons, List.foldl_nil, hd.2, List.length_singleton, pow_one]
        omega
    · obtain ⟨pre, hpre, _, hdig, hval⟩ := ih (n / 10) (Nat.digitChar (n % 10) :: ds) (by omega)
      refine ⟨pre ++ [Nat.digitChar (n % 10)], ?_, by simp, ?_, ?_⟩
      · simp [Nat.toDigitsCore, hn, hpre]
      · intro c hc
        rcases List.mem_append.mp hc with hc | hc
        · exact hdig c hc
        · rw [List.mem_singleton.mp hc]
          exact hd.1
      · intro acc
        simp only [List.foldl_append, List.foldl_cons, List.foldl_nil, hval, hd.2,
          List.length_append, List.length_singleton, pow_succ]
        have := Nat.div_add_mod n 10
        nlinarith [this]

/-- The characters of `toString i` for a natural number: a non-empty run of
decimal digits that `parseInt` reads back as `i`. -/
theorem toString_nat_spec (i : Nat) :
    (toString i).toList ≠ [] ∧ (∀ c ∈ (toString i).toList, c.isDigit = true)
      ∧ parseInt (toString i).toList = i := by
  obtain ⟨pre, hpre, hne, hdig, hval⟩ := toDigitsCore_spec (i + 1) i [] (by omega)
  have h : (toString i).toList = pre := by
    show (Nat.repr i).toList = pre
    simp [Nat.repr, Nat.toDigits, hpre, List.asString]
  rw [h]
  refine ⟨hne, hdig, ?_⟩
  have := hval 0
  simpa [parseInt] using this

/-! ## History serializer: the matchers on the records of the engine -/

theorem takeWhile_digits (ds : List Char) (c : Char) (rest : List Char)
    (hds : ∀ d ∈ ds, d.isDigit = true) (hc : c.isDigit = false) :
    (ds ++ c :: rest).takeWhile Char.isDigit = ds
      ∧ (ds ++ c :: rest).dropWhile Char.isDigit = c :: rest := by
  induction ds with
  | nil => simp [List.takeWhile, List.dropWhile, hc]
  | cons d ds ih =>
    have hd : d.isDigit = true := hds d (List.mem_cons_self _ _)
    have := ih (fun x hx => hds x (List.mem_cons_of_mem _ hx))
    simp [List.takeWhile, List.dropWhile, hd, this]

theorem operand_digits (ds rest : List Char) (hne : ds ≠ [])
    (hds : ∀ d ∈ ds, d.isDigit = true) :
    operand ('q' :: '[' :: (ds ++ ']' :: rest)) = some (parseInt ds, rest) := by
  obtain ⟨h1, h2⟩ := takeWhile_digits ds ']' rest hds (by decide)
  have hl : lit ['q', '['] ('q' :: '[' :: (ds ++ ']' :: rest)) = some (ds ++ ']' :: rest) := by
    simp [lit]
  have hr : lit [']'] (']' :: rest) = some rest := by
    simp [lit]
  rw [operand, hl]
  simp only [Option.some_bind, h1, h2, if_neg hne, hr, Option.map_some']

theorem matchSingle_label (g : String) (i : Nat)
    (hg : g ∈ ["x", "y", "z", "h", "s", "sdg", "t", "tdg"]) :
    matchSingle (g.toList ++ ' ' :: 'q' :: '[' :: ((toString i).toList ++ [']']))
      = some (g, i) := by
  obtain ⟨hne, hds, hval⟩ := toString_nat_spec i
  have hop := operand_digits (toString i).toList [] hne hds
  rw [hval] at hop
  change operand ('q' :: '[' :: ((toString i).data ++ [']'])) = some (i, []) at hop
  simp only [List.mem_cons, List.mem_singleton, List.not_mem_nil, or_false] at hg
  rcases hg with rfl | rfl | rfl | rfl | rfl | rfl | rfl | rfl <;>
    simp [matchSingle, List.findSome?, lit, spaces1, isSpace, hop, List.dropWhile]

/-- The record of a single-qubit gate is read by the first pattern. -/
theorem emitLine_single (g : String) (i : Nat)
    (hg : g ∈ ["x", "y", "z", "h", "s", "sdg", "t", "tdg"]) :
    emitLine (g ++ " q[" ++ toString i ++ "]") = "qc." ++ g ++ "(" ++ toString i ++ ")" := by
  have h : (g ++ " q[" ++ toString i ++ "]").toList
      = g.toList ++ ' ' :: 'q' :: '[' :: ((toString i).toList ++ [']']) := by
    simp [String.toList]
  unfold emitLine
  rw [h, matchSingle_label g i hg]

/-- Every record the engine logs is turned into its call line. -/
theorem emitLine_label (g : Gate) (i : Nat) : emitLine (g.label i) = g.line i := by
  cases g
  case X => exact emitLine_single "x" i (by simp)
  case Y => exact emitLine_single "y" i (by simp)
  case Z => exact emitLine_single "z" i (by simp)
  case H => exact emitLine_single "h" i (by simp)
  case S => exact emitLine_single "s" i (by simp)
  case Sdg => exact emitLine_single "sdg" i (by simp)
  case T => exact emitLine_single "t" i (by simp)
  case Tdg => exact emitLine_single "tdg" i (by simp)
  case CNOT =>
    show emitLine "cx q[0],q[1]" = "qc.cx(0, 1)"
    decide
  case CZ =>
    show emitLine "cz q[0],q[1]" = "qc.cz(0, 1)"
    decide
  case SWAP =>
    show emitLine "swap q[0],q[1]" = "qc.swap(0, 1)"
    decide
  case ISWAP =>
    show emitLine "iswap q[0],q[1]" = "qc.append(iSwapGate(), [0, 1])"
    decide
  case CCX =>
    show emitLine "ccx q[0],q[1] -> q[2]" = "qc.ccx(0, 1, 2)"
    decide
  case CSWAP =>
    show emitLine "cswap q[0] ? swap q[1],q[2]" = "qc.cswap(0, 1, 2)"
    decide

/-! ## History serializer: lines of the output -/

theorem splitLines_ne_nil (a : List Char) : splitLines a ≠ [] := by
  cases a with
  | nil => simp [splitLines]
  | cons c cs =>
    unfold splitLines
    split_ifs
    · simp
    · split <;> simp

theorem splitLines_append (a b : List Char) :
    splitLines (a ++ '\n' :: b) = splitLines a ++ splitLines b := by
  induction a with
  | nil => simp [splitLines]
  | cons c cs ih =>
    by_cases hc : c = '\n'
    · simp [splitLines, hc, ih]
    · obtain ⟨l, ls, hl⟩ := List.exists_cons_of_ne_nil (splitLines_ne_nil cs)
      simp [splitLines, hc, ih, hl]

theorem splitLines_of_not_mem (a : List Char) (h : '\n' ∉ a) : splitLines a = [a] := by
  induction a with
  | nil => rfl
  | cons c cs ih =>
    have hc : c ≠ '\n' := fun hc => h (hc ▸ List.mem_cons_self _ _)
    have hcs : '\n' ∉ cs := fun hx => h (List.mem_cons_of_mem _ hx)
    simp [splitLines, hc, ih hcs]

theorem linesOf_of_not_mem (s : String) (h : '\n' ∉ s.toList) : linesOf s = [s] := by
  unfold linesOf
  rw [splitLines_of_not_mem _ h]
  rfl

/-- The lines of a joined array are the lines of its elements, in order. -/
theorem linesOf_joinLines (a : String) (ls : List String) :
    linesOf (joinLines (a :: ls)) = (a :: ls).flatMap linesOf := by
  induction ls generalizing a with
  | nil => simp [joinLines]
  | cons b rest ih =>
    have h := ih b
    simp only [linesOf, String.toList] at h ⊢
    simp only [joinLines, String.data_append, List.flatMap_cons] at h ⊢
    rw [List.append_assoc, List.singleton_append, splitLines_append, List.map_append, h]
    rfl

theorem isDigit_ne_newline {c : Char} (h : c.isDigit = true) : c ≠ '\n' := by
  rintro rfl
  exact absurd h (by decide)

theorem toString_nat_no_newline (m : Nat) : '\n' ∉ (toString m).toList := fun h =>
  isDigit_ne_newline ((toString_nat_spec m).2.1 _ h) rfl

/-- The declaration line is one line. -/
theorem decl_no_newline (k : Int) (hk : 1 ≤ k) :
    '\n' ∉ ("qc = QuantumCircuit(" ++ toString k ++ ")").toList := by
  obtain ⟨m, rfl⟩ := Int.eq_ofNat_of_zero_le (by omega : 0 ≤ k)
  have hm := toString_nat_no_newline m
  have ht : toString ((m : Nat) : Int) = toString m := rfl
  rw [ht]
  simp only [String.toList, String.data_append, List.mem_append, not_or] at hm ⊢
  exact ⟨⟨by decide, hm⟩, by decide⟩

theorem max_one_orOne (n : Int) : max 1 (if n = 0 then 1 else n) = max 1 n := by
  split_ifs with h
  · subst h
    rfl
  · rfl

/-- The lines of the generated code: the import line(s), the declaration of
`max(1, numQubits)` qubits, the placeholder when the history is empty, the
lines of what each record emits, in order, and `print(qc)`. -/
theorem linesOf_buildQiskitCode (history : List String) (n : Int) :
    linesOf (buildQiskitCode history n)
      = (if (history.any fun h => (matchIswap h.toList).isSome) = true then
          ["from qiskit import QuantumCircuit", "from qiskit.circuit.library import iSwapGate"]
         else ["from qiskit import QuantumCircuit"])
        ++ ["qc = QuantumCircuit(" ++ toString (max 1 n) ++ ")"]
        ++ (if history = [] then ["# (no gates applied yet)"] else [])
        ++ history.flatMap (fun h => linesOf (emitLine h))
        ++ ["print(qc)"] := by
  have hdecl := linesOf_of_not_mem _ (decl_no_newline (max 1 n) (le_max_left 1 n))
  have h1 : linesOf "from qiskit import QuantumCircuit"
      = ["from qiskit import QuantumCircuit"] := by decide
  have h2 : linesOf "from qiskit.circuit.library import iSwapGate"
      = ["from qiskit.circuit.library import iSwapGate"] := by decide
  have h3 : linesOf "# (no gates applied yet)" = ["# (no gates applied yet)"] := by decide
  have h4 : linesOf "print(qc)" = ["print(qc)"] := by decide
  have hmap : (history.map emitLine).flatMap linesOf
      = history.flatMap (fun h => linesOf (emitLine h)) := by
    induction history with
    | nil => rfl
    | cons a l ih => simp [List.flatMap_cons, ih]
  have hlen : history.length = 0 ↔ history = [] := List.length_eq_zero
  unfold buildQiskitCode buildLines
  simp only [max_one_orOne]
  split_ifs with ha hb hb <;>
    simp only [List.cons_append, List.nil_append, List.append_assoc] <;>
    rw [linesOf_joinLines] <;>
    simp only [List.flatMap_cons, List.flatMap_append, List.flatMap_nil, h1, h2, h3, h4, hdecl,
      hmap, List.cons_append, List.nil_append, List.append_assoc, List.append_nil] <;>
    simp_all

/-- The call line of a gate is one line. -/
theorem line_no_newline (g : Gate) (i : Nat) : '\n' ∉ (g.line i).toList := by
  have hm := toString_nat_no_newline i
  cases g <;>
    simp only [Gate.line, String.toList, String.data_append, List.mem_append, not_or] at hm ⊢
  case CNOT | CZ | SWAP | ISWAP | CCX | CSWAP => decide
  all_goals exact ⟨⟨by decide, hm⟩, by decide⟩

/-- What the records of the engine emit, as lines: their call lines. -/
theorem flatMap_labels (gs : List (Gate × Nat)) :
    (gs.map fun gi => gi.1.label gi.2).flatMap (fun h => linesOf (emitLine h))
      = gs.map fun gi => gi.1.line gi.2 := by
  induction gs with
  | nil => rfl
  | cons gi rest ih =>
    simp only [List.map_cons, List.flatMap_cons, ih, emitLine_label,
      linesOf_of_not_mem _ (line_no_newline gi.1 gi.2), List.singleton_append]

/-! ## History log: what the engine records -/

theorem runFrames_history (a : Animation) (fs : List ℝ) (s s' : Sim)
    (h : runFrames a fs s = some s') : s'.history = s.history := by
  induction fs generalizing s with
  | nil =>
    simp only [runFrames, Option.some.injEq] at h
    rw [h]
  | cons f rest ih =>
    simp only [runFrames] at h
    cases hu : onUpdate a f s with
    | none => simp [hu] at h
    | some s1 =>
      rw [hu, Option.some_bind] at h
      rw [ih s1 h]
      unfold onUpdate at hu
      cases hv : vecOf a.qubits a.index with
      | none => simp [hv] at hu
      | some v0 =>
        simp only [hv, Option.map_some', Option.some.injEq] at hu
        rw [← hu]

theorem runAnimation_history (a : Animation) (fs : List ℝ) (s s' : Sim)
    (h : runAnimation a fs s = some s') : s'.history = s.history ++ [a.label] := by
  unfold runAnimation at h
  cases hr : runFrames a (fs ++ [a.angle]) s with
  | none => simp [hr] at h
  | some s1 =>
    simp only [hr, Option.map_some', Option.some.injEq] at h
    rw [← h, ← runFrames_history a _ s s1 hr]
    rfl

/-- A call of `applyAxisRotationOn`, carried through, logs its label or, when
the store is busy, nothing. -/
theorem finish_history (s : Sim) (g : String) (index : Nat) (axis : Axis) (angle : ℝ)
    (label : String) (frames : List ℝ) (s' : Sim)
    (h : finish frames (applyAxisRotationOn (s.withLast g) index axis angle label)
      = some s') :
    s'.history = s.history ∨ s'.history = s.history ++ [label] := by
  unfold applyAxisRotationOn at h
  split_ifs at h
  · simp only [finish, Option.some.injEq] at h
    left
    rw [← h]
    rfl
  · simp only [finish] at h
    right
    exact runAnimation_history _ frames _ s' h

/-- The history after a gate is carried through: unchanged (the gate was
rejected) or extended by the record of the gate. -/
theorem commitGate_history (g : Gate) (frames : List ℝ) (s s' : Sim)
    (h : commitGate g frames s = some s') :
    s'.history = s.history ∨ s'.history = s.history ++ [g.label s.selected] := by
  cases g
  case CNOT =>
    simp only [commitGate, applyGate, applyCNOT] at h
    split_ifs at h
    · simp only [Option.some_bind, finish, Option.some.injEq] at h
      exact Or.inl (h ▸ rfl)
    · cases hp : probOne s.qubits 0 with
      | none => simp [hp] at h
      | some p =>
        simp only [hp, Option.map_some', Option.some_bind] at h
        exact finish_history s _ _ _ _ _ frames s' h
  case CZ =>
    simp only [commitGate, applyGate, applyCZ] at h
    split_ifs at h
    · simp only [Option.some_bind, finish, Option.some.injEq] at h
      exact Or.inl (h ▸ rfl)
    · cases hp : probOne s.qubits 0 with
      | none => simp [hp] at h
      | some p =>
        simp only [hp, Option.map_some', Option.some_bind] at h
        exact finish_history s _ _ _ _ _ frames s' h
  case CCX =>
    simp only [commitGate, applyGate, applyCCX] at h
    split_ifs at h
    · simp only [Option.some_bind, finish, Option.some.injEq] at h
      exact Or.inl (h ▸ rfl)
    · cases hp : probOne s.qubits 0 with
      | none => simp [hp] at h
      | some p =>
        cases hp2 : probOne s.qubits 1 with
        | none => simp [hp, hp2] at h
        | some p2 =>
          simp only [hp, hp2, Option.map_some', Option.some_bind] at h
          exact finish_history s _ _ _ _ _ frames s' h
  case SWAP =>
    simp only [commitGate, applyGate, applySWAP] at h
    split_ifs at h
    · simp only [Option.some_bind, finish, Option.some.injEq] at h
      exact Or.inl (h ▸ rfl)
    · cases hu : swapUpdater s.qubits with
      | none => simp [hu] at h
      | some qs =>
        simp only [hu, Option.map_some', Option.some_bind, finish, Option.some.injEq] at h
        exact Or.inr (h ▸ rfl)
  case ISWAP =>
    simp only [commitGate, applyGate, applyISWAP] at h
    split_ifs at h
    · simp only [Option.some_bind, finish, Option.some.injEq] at h
      exact Or.inl (h ▸ rfl)
    · cases hu : iswapUpdater s.qubits with
      | none => simp [hu] at h
      | some qs =>
        simp only [hu, Option.map_some', Option.some_bind, finish, Option.some.injEq] at h
        exact Or.inr (h ▸ rfl)
  case CSWAP =>
    simp only [commitGate, applyGate, applyCSWAP] at h
    split_ifs at h
    · simp only [Option.some_bind, finish, Option.some.injEq] at h
      exact Or.inl (h ▸ rfl)
    · cases hp : probOne s.qubits 0 with
      | none => simp [hp] at h
      | some p =>
        cases ha : s.qubits[1]? with
        | none => simp [hp, ha] at h
        | some qa =>
          cases hb : s.qubits[2]? with
          | none => simp [hp, ha, hb] at h
          | some qb =>
            simp only [hp, ha, hb, Option.some_bind, Option.map_some', finish,
              Option.some.injEq] at h
            exact Or.inr (h ▸ rfl)
  all_goals exact finish_history s _ _ _ _ _ frames s' h

/-! ## History serializer: the claims -/

/-- C11: every label the engine records is understood by the serializer. A
gate carried through logs nothing or its record `g.label i`; for every gate
and every index the record is turned into the matching call line `g.line i`
(never the comment fallback); and for a history of such records the lines of
the generated code are the import line(s), the declaration, the placeholder
when the history is empty, the call lines in the order of the history, and
`print(qc)`. In particular the code for `["x q[0]"]` contains `qc.x(0)`. -/
theorem labels_understood :
    (∀ (g : Gate) (frames : List ℝ) (s s' : Sim), commitGate g frames s = some s' →
        s'.history = s.history ∨ s'.history = s.history ++ [g.label s.selected])
      ∧ (∀ (g : Gate) (i : Nat), emitLine (g.label i) = g.line i)
      ∧ (∀ (gs : List (Gate × Nat)) (n : Int),
          linesOf (buildQiskitCode (gs.map fun gi => gi.1.label gi.2) n)
            = (if ((gs.map fun gi => gi.1.label gi.2).any
                    fun h => (matchIswap h.toList).isSome) = true then
                ["from qiskit import QuantumCircuit",
                 "from qiskit.circuit.library import iSwapGate"]
               else ["from qiskit import QuantumCircuit"])
              ++ ["qc = QuantumCircuit(" ++ toString (max 1 n) ++ ")"]
              ++ (if gs = [] then ["# (no gates applied yet)"] else [])
              ++ (gs.map fun gi => gi.1.line gi.2)
              ++ ["print(qc)"])
      ∧ "qc.x(0)" ∈ linesOf (buildQiskitCode ["x q[0]"] 1) := by
  refine ⟨commitGate_history, emitLine_label, ?_, by decide⟩
  intro gs n
  rw [linesOf_buildQiskitCode, flatMap_labels]
  simp only [List.map_eq_nil_iff]

/-- C11, for the X gate carried through on the initial store. -/
theorem labels_understood_witness :
    ∃ s', commitGate .X [] Sim.init = some s'
      ∧ (s'.history = Sim.init.history
          ∨ s'.history = Sim.init.history ++ [Gate.label .X Sim.init.selected])
      ∧ emitLine (Gate.label .X 0) = Gate.line .X 0 :=
  ⟨_, commitGate_X Sim.init ⟨0, 0⟩ [] rfl rfl,
    labels_understood.1 .X [] Sim.init _ (commitGate_X Sim.init ⟨0, 0⟩ [] rfl rfl),
    labels_understood.2.1 .X 0⟩

/-- A record that matches none of the six patterns of `buildQiskitCode`. -/
theorem emitLine_unknown (h : String)
    (h1 : matchSingle h.toList = none) (h2 : matchCxCz h.toList = none)
    (h3 : matchSwap h.toList = none) (h4 : matchIswap h.toList = none)
    (h5 : matchCcx h.toList = none) (h6 : matchCswap h.toList = none) :
    emitLine h = "# " ++ h := by
  simp only [emitLine, h1, h2, h3, h4, h5, h6]

/-- C12, at the failing input: the history of the one record `a`, line feed,
`b`. The record matches no pattern, the fallback (in the source under the
comment "Fallback: comment unknown history entry") pushes it after `# `, and
the generated code holds the comment line `# a` followed by the line `b`,
which is not a comment: the record is not emitted as exactly one comment
line. -/
theorem unknown_record_line_break :
    emitLine "a\nb" = "# a\nb"
      ∧ linesOf (buildQiskitCode ["a\nb"] 1)
          = ["from qiskit import QuantumCircuit", "qc = QuantumCircuit(1)", "# a", "b",
             "print(qc)"] := by
  constructor <;> decide

/-- Unknown records without a line break do degrade to a comment. For every
history and every record in it that matches none of the six
patterns and contains no line feed, the generated code holds, at the position
of the record (after the lines of the records before it and before the lines
of the records after it), exactly the one line `# ` followed by the record. -/
theorem unknown_record_comment (before after : List String) (h : String) (n : Int)
    (h1 : matchSingle h.toList = none) (h2 : matchCxCz h.toList = none)
    (h3 : matchSwap h.toList = none) (h4 : matchIswap h.toList = none)
    (h5 : matchCcx h.toList = none) (h6 : matchCswap h.toList = none)
    (hnl : '\n' ∉ h.toList) :
    emitLine h = "# " ++ h
      ∧ linesOf (buildQiskitCode (before ++ h :: after) n)
          = (if ((before ++ h :: after).any fun r => (matchIswap r.toList).isSome) = true then
              ["from qiskit import QuantumCircuit",
               "from qiskit.circuit.library import iSwapGate"]
             else ["from qiskit import QuantumCircuit"])
            ++ ["qc = QuantumCircuit(" ++ toString (max 1 n) ++ ")"]
            ++ before.flatMap (fun r => linesOf (emitLine r))
            ++ ["# " ++ h]
            ++ after.flatMap (fun r => linesOf (emitLine r))
            ++ ["print(qc)"] := by
  have he := emitLine_unknown h h1 h2 h3 h4 h5 h6
  have hl : linesOf ("# " ++ h) = ["# " ++ h] := by
    apply linesOf_of_not_mem
    simp only [String.toList, String.data_append, List.mem_append, not_or] at hnl ⊢
    exact ⟨by decide, hnl⟩
  refine ⟨he, ?_⟩
  rw [linesOf_buildQiskitCode]
  have hne : ¬ (before ++ h :: after = []) := by simp
  simp only [hne, if_false, List.flatMap_append, List.flatMap_cons, he, hl, List.append_nil,
    List.append_assoc]

/-- The record `barrier` between two gate records becomes one comment line. -/
theorem unknown_record_comment_barrier :
    emitLine "barrier" = "# " ++ "barrier"
      ∧ linesOf (buildQiskitCode (["x q[0]"] ++ "barrier" :: ["h q[0]"]) 1)
          = (if ((["x q[0]"] ++ "barrier" :: ["h q[0]"]).any
                  fun r => (matchIswap r.toList).isSome) = true then
              ["from qiskit import QuantumCircuit",
               "from qiskit.circuit.library import iSwapGate"]
             else ["from qiskit import QuantumCircuit"])
            ++ ["qc = QuantumCircuit(" ++ toString (max 1 (1 : Int)) ++ ")"]
            ++ ["x q[0]"].flatMap (fun r => linesOf (emitLine r))
            ++ ["# " ++ "barrier"]
            ++ ["h q[0]"].flatMap (fun r => linesOf (emitLine r))
            ++ ["print(qc)"] :=
  unknown_record_comment ["x q[0]"] ["h q[0]"] "barrier" 1 (by decide) (by decide)
    (by decide) (by decide) (by decide) (by decide) (by decide)

/-- C13: the qubit declaration. For every history and every integer
`numQubits` up to `2 ^ 53` (zero and negative values included), the range in
which the program prints an integer by its decimal digits, the lines of the
generated code are the import line(s), then the line `qc = QuantumCircuit(k)`
with `k = max(1, numQubits)`, then the placeholder or the lines the records
emit, then `print(qc)`; for `numQubits = 0` and `numQubits = -3` the line is
`qc = QuantumCircuit(1)`. -/
theorem qubit_declaration (history : List String) (n : Int) (_hn : n ≤ 2 ^ 53) :
    (∃ imports rest : List String,
        linesOf (buildQiskitCode history n)
          = imports ++ ("qc = QuantumCircuit(" ++ toString (max 1 n) ++ ")") :: rest
        ∧ (imports = ["from qiskit import QuantumCircuit"]
            ∨ imports = ["from qiskit import QuantumCircuit",
                         "from qiskit.circuit.library import iSwapGate"])
        ∧ rest = (if history = [] then ["# (no gates applied yet)"] else [])
            ++ history.flatMap (fun h => linesOf (emitLine h)) ++ ["print(qc)"])
      ∧ "qc = QuantumCircuit(" ++ toString (max 1 (0 : Int)) ++ ")" = "qc = QuantumCircuit(1)"
      ∧ "qc = QuantumCircuit(" ++ toString (max 1 (-3 : Int)) ++ ")"
          = "qc = QuantumCircuit(1)" := by
  refine ⟨⟨if (history.any fun h => (matchIswap h.toList).isSome) = true then
        ["from qiskit import QuantumCircuit", "from qiskit.circuit.library import iSwapGate"]
      else ["from qiskit import QuantumCircuit"],
    (if history = [] then ["# (no gates applied yet)"] else [])
      ++ history.flatMap (fun h => linesOf (emitLine h)) ++ ["print(qc)"], ?_, ?_, rfl⟩,
    by decide, by decide⟩
  · rw [linesOf_buildQiskitCode]
    simp only [List.append_assoc, List.singleton_append, List.cons_append, List.nil_append]
  · split_ifs
    · exact Or.inr rfl
    · exact Or.inl rfl

/-- C13, for the history of an iSWAP and an H record: with `numQubits = -3` the
declaration `qc = QuantumCircuit(1)` follows the two import lines, and with
`numQubits = 3` the lines are the two imports, `qc = QuantumCircuit(3)`, the
two calls and `print(qc)`. -/
theorem qubit_declaration_witness :
    (-3 : Int) ≤ 2 ^ 53
      ∧ ((∃ imports rest : List String,
            linesOf (buildQiskitCode ["iswap q[0],q[1]", "h q[0]"] (-3))
              = imports ++ ("qc = QuantumCircuit(" ++ toString (max 1 (-3 : Int)) ++ ")") :: rest
            ∧ (imports = ["from qiskit import QuantumCircuit"]
                ∨ imports = ["from qiskit import QuantumCircuit",
                             "from qiskit.circuit.library import iSwapGate"])
            ∧ rest = (if ["iswap q[0],q[1]", "h q[0]"] = [] then ["# (no gates applied yet)"]
                      else [])
                ++ ["iswap q[0],q[1]", "h q[0]"].flatMap (fun h => linesOf (emitLine h))
                ++ ["print(qc)"])
          ∧ "qc = QuantumCircuit(" ++ toString (max 1 (0 : Int)) ++ ")"
              = "qc = QuantumCircuit(1)"
          ∧ "qc = QuantumCircuit(" ++ toString (max 1 (-3 : Int)) ++ ")"
              = "qc = QuantumCircuit(1)")
      ∧ linesOf (buildQiskitCode ["iswap q[0],q[1]", "h q[0]"] 3)
          = ["from qiskit import QuantumCircuit",
             "from qiskit.circuit.library import iSwapGate",
             "qc = QuantumCircuit(3)", "qc.append(iSwapGate(), [0, 1])", "qc.h(0)",
             "print(qc)"] :=
  ⟨by decide, qubit_declaration ["iswap q[0],q[1]", "h q[0]"] (-3) (by decide), by decide⟩

theorem placeholder_ne_decl (x : String) :
    "# (no gates applied yet)" ≠ "qc = QuantumCircuit(" ++ x ++ ")" := by
  intro h
  have h' := congrArg (fun s : String => s.data.head?) h
  simp [String.data_append] at h'

theorem placeholder_ne_line (g : Gate) (i : Nat) :
    "# (no gates applied yet)" ≠ g.line i := by
  intro h
  have h' := congrArg (fun s : String => s.data.head?) h
  cases g <;> simp [Gate.line, String.data_append] at h'

/-- The placeholder among the lines of the generated code for a non-empty
history: it is there only as a line that a record emits. -/
theorem placeholder_mem_iff (history : List String) (n : Int) (hne : history ≠ []) :
    "# (no gates applied yet)" ∈ linesOf (buildQiskitCode history n)
      ↔ ∃ h ∈ history, "# (no gates applied yet)" ∈ linesOf (emitLine h) := by
  have hd := placeholder_ne_decl (toString (max 1 n))
  have h1 : "# (no gates applied yet)" ≠ "from qiskit import QuantumCircuit" := by decide
  have h2 : "# (no gates applied yet)" ≠ "from qiskit.circuit.library import iSwapGate" := by
    decide
  have h3 : "# (no gates applied yet)" ≠ "print(qc)" := by decide
  rw [linesOf_buildQiskitCode]
  simp only [hne, if_false, List.append_nil, List.mem_append, List.mem_singleton,
    List.mem_flatMap, hd, h3, or_false, false_or]
  constructor
  · rintro (h | h)
    · split_ifs at h <;> simp [h1, h2] at h
    · exact h
  · exact fun h => Or.inr h

/-- C14, as stated, fails: for the non-empty history that holds the record
`(no gates applied yet)` the comment fallback emits the very line
`# (no gates applied yet)`. -/
theorem placeholder_from_record :
    "# (no gates applied yet)" ∈ linesOf (buildQiskitCode ["(no gates applied yet)"] 1)
      ∧ ["(no gates applied yet)"] ≠ ([] : List String) := by
  constructor <;> decide

/-- C14, amended: the no-gates placeholder. The generated code for the empty
history and one qubit is exactly the four lines import, declaration,
placeholder, `print(qc)`; for the empty history the placeholder is always a
line of the code; for a non-empty history no placeholder is added (the line
is there only if a record itself emits it), and never for a history of
records of the engine. -/
theorem placeholder_line :
    buildQiskitCode [] 1
        = "from qiskit import QuantumCircuit\nqc = QuantumCircuit(1)\n# (no gates applied yet)\nprint(qc)"
      ∧ (∀ n : Int, "# (no gates applied yet)" ∈ linesOf (buildQiskitCode [] n))
      ∧ (∀ (history : List String) (n : Int), history ≠ [] →
          ("# (no gates applied yet)" ∈ linesOf (buildQiskitCode history n)
            ↔ ∃ h ∈ history, "# (no gates applied yet)" ∈ linesOf (emitLine h)))
      ∧ (∀ (gs : List (Gate × Nat)) (n : Int), gs ≠ [] →
          "# (no gates applied yet)"
            ∉ linesOf (buildQiskitCode (gs.map fun gi => gi.1.label gi.2) n)) := by
  refine ⟨by decide, ?_, placeholder_mem_iff, ?_⟩
  · intro n
    rw [linesOf_buildQiskitCode]
    simp
  · intro gs n hne
    rw [placeholder_mem_iff _ n (by simpa using hne)]
    rintro ⟨h, hmem, hin⟩
    obtain ⟨gi, _, rfl⟩ := List.mem_map.mp hmem
    rw [emitLine_label, linesOf_of_not_mem _ (line_no_newline gi.1 gi.2),
      List.mem_singleton] at hin
    exact placeholder_ne_line gi.1 gi.2 hin

/-- C14, amended, for the history `x q[0]`. -/
theorem placeholder_line_witness :
    ("# (no gates applied yet)" ∈ linesOf (buildQiskitCode ["x q[0]"] 1)
        ↔ ∃ h ∈ ["x q[0]"], "# (no gates applied yet)" ∈ linesOf (emitLine h))
      ∧ "# (no gates applied yet)"
          ∉ linesOf (buildQiskitCode ([(Gate.X, 0)].map fun gi => gi.1.label gi.2) 1) :=
  ⟨placeholder_line.2.2.1 ["x q[0]"] 1 (by simp),
   placeholder_line.2.2.2 [(Gate.X, 0)] 1 (by simp)⟩

end QubitSim
